import Mathlib

/-!
Verification model of the clink key-chord binder (clink/lib/src/binder.cpp).

The single source file provides: the chord translator (translate_chord), the
binder constructor, group management (get_group, create_group), chord
registration (bind) with its helpers (insert_child, find_child, add_child,
find_tail, append), the read accessors, the bump allocator (alloc_nodes) and
the backend registry (add_backend, get_backend).

The class declaration (binder.h) with the node layout, the pool capacity and
the registry capacity is not among the provided sources; those parts are
modelled from the spec, as marked on each definition.  Bytes are modelled as
natural numbers below 256 and node indices as natural numbers; the failure
sentinel -1 is modelled with the integers.
-/

namespace Clink

/-- Modelled from the spec: the node layout lives in binder.h, which is not
among the provided sources.  The spec describes one pool slot read under two
interpretations: a trie node (key, child, next, bound, depth, backend, id)
and a group-list node (hash, is_group, next) overlaid on the same storage.
Following section 9 of the spec the two interpretations are modelled as
disjoint fields of one structure, with the next field shared by both
interpretations as the spec names it in both. -/
structure Node where
  key : Nat := 0
  child : Nat := 0
  next : Nat := 0
  bound : Bool := false
  depth : Nat := 0
  backend : Nat := 0
  id : Nat := 0
  hash : Nat := 0
  is_group : Bool := false
deriving Repr, DecidableEq

instance : Inhabited Node := ⟨{}⟩

/-- Modelled from the spec: the pool capacity and the registry capacity are
compile-time constants in binder.h, which is not among the provided sources;
they are carried as fields so that statements can quantify over them.
nodes models the fixed array m_nodes (length capacity), next_node models the
bump cursor m_next_node, and backends models the identity-keyed registry
m_backends, an opaque handler reference being modelled as a natural number
token compared for identity. -/
structure Binder where
  capacity : Nat
  backend_capacity : Nat
  nodes : List Node
  next_node : Nat
  backends : List Nat
deriving Repr, DecidableEq

/-- Reading one pool slot; out of range slots read as the zero node, matching
the fallback of the accessor get_node in the source. -/
def listGet : List Node → Nat → Node
  | [], _ => {}
  | n :: _, 0 => n
  | _ :: rest, i + 1 => listGet rest i

/-- Writing one pool slot; out of range writes are dropped. -/
def listSet : List Node → Nat → Node → List Node
  | [], _, _ => []
  | _ :: rest, 0, v => v :: rest
  | n :: rest, i + 1, v => n :: listSet rest i v

def getNode (b : Binder) (i : Nat) : Node := listGet b.nodes i

def setNode (b : Binder) (i : Nat) (v : Node) : Binder :=
  { b with nodes := listSet b.nodes i v }

/-- ASCII codes used by the translator. -/
def backslashByte : Nat := 92
def caretByte : Nat := 94

/-- One pass of the translation loop of translate_chord.  The state is the
remaining input and the write index i; the result is the list of bytes
written at consecutive indices together with the index at which the final
terminating zero byte is written, or none when translation fails.  The case
of a backslash at the end of the input models the source exactly: the switch
case for the terminator sets i to SIZE and the for-loop increment then raises
it to SIZE + 1 before the loop condition stops the loop. -/
def tcLoop (SIZE : Nat) : List Nat → Nat → Option (List Nat × Nat)
  | [], i => some ([], i)
  | c :: rest, i =>
    if i < SIZE - 1 then
      if c ≠ backslashByte ∧ c ≠ caretByte then
        (tcLoop SIZE rest (i + 1)).map (fun r => (c :: r.1, r.2))
      else if c = caretByte then
        (tcLoop SIZE rest (i + 1)).map (fun r => ((caretByte &&& 0x1f) :: r.1, r.2))
      else
        match rest with
        | [] => some ([], SIZE + 1)
        | e :: rest2 =>
          if e = 77 then  -- the letter M
            match rest2 with
            | [] => none
            | dash :: rest3 =>
              if dash = 45 then
                (tcLoop SIZE rest3 (i + 1)).map (fun r => (0x1b :: r.1, r.2))
              else none
          else if e = 67 then  -- the letter C
            match rest2 with
            | [] => none
            | dash :: rest3 =>
              if dash = 45 then
                (tcLoop SIZE rest3 (i + 1)).map (fun r => ((45 &&& 0x1f) :: r.1, r.2))
              else none
          else
            let bout : Nat :=
              if e = 101 then 0x1b       -- e
              else if e = 116 then 9     -- t
              else if e = 110 then 10    -- n
              else if e = 114 then 13    -- r
              else if e = 48 then 0      -- 0
              else e
            (tcLoop SIZE rest2 (i + 1)).map (fun r => (bout :: r.1, r.2))
    else some ([], i)

/-- translate_chord of the source: translate the symbolic chord into the
bytes written into the output buffer, together with the index of the final
terminating zero write. -/
def translate_chord (SIZE : Nat) (chord : List Nat) : Option (List Nat × Nat) :=
  tcLoop SIZE chord 0

/-- The binder constructor: slots 0 and 1 reserved, cursor at 2.  Modelled
from the spec where it depends on the missing header: the spec says index 0
is the head sentinel of the group list, index 1 the root trie node of the
default group, and that the default group has no group-list entry, so the
sentinel starts with an empty list (all fields zero); the source only shows
aggregate initialisation of the two slots and the cursor value 2. -/
def initBinder (cap : Nat) : Binder :=
  { capacity := cap
    backend_capacity := cap
    nodes := List.replicate cap {}
    next_node := 2
    backends := [] }

/-- alloc_nodes of the source: the cursor is advanced first, unconditionally,
and the start index is returned only when the advanced cursor is still
strictly below the capacity; otherwise the sentinel -1 is returned (with the
cursor left advanced). -/
def alloc_nodes (b : Binder) (count : Nat) : Binder × Int :=
  let b1 := { b with next_node := b.next_node + count }
  (b1, if b1.next_node < b.capacity then (b.next_node : Int) else -1)

/-- The scan loop of add_backend: first registry index holding this handler
token, or -1. -/
def find_backend : List Nat → Nat → Nat → Int
  | [], _, _ => -1
  | x :: rest, h, i => if x = h then (i : Int) else find_backend rest h (i + 1)

/-- add_backend of the source: return the index of an existing identical
entry, else append when the registry still has room (the fixed registry
capacity is modelled from the spec, which calls its exhaustion the pool
exhaustion analog for that table), else fail with -1. -/
def add_backend (b : Binder) (h : Nat) : Binder × Int :=
  let i := find_backend b.backends h 0
  if 0 ≤ i then (b, i)
  else if b.backends.length < b.backend_capacity then
    ({ b with backends := b.backends ++ [h] }, (b.backends.length : Int))
  else (b, -1)

/-- The sibling scan loop of find_child, with fuel: starting from the child
field of the parent, walk next while the index is strictly greater than the
parent, returning the first index whose key matches, or 0. -/
def find_child_loop (b : Binder) (parent key : Nat) : Nat → Nat → Nat
  | 0, _ => 0
  | fuel + 1, index =>
    if parent < index then
      let n := getNode b index
      if n.key = key then index
      else find_child_loop b parent key fuel n.next
    else 0

/-- find_child of the source. -/
def find_child (b : Binder) (parent key : Nat) : Nat :=
  find_child_loop b parent key (b.capacity + 2) (getNode b parent).child

/-- The loop of find_tail, with fuel: follow next while it is strictly
greater than the current index. -/
def find_tail_loop (b : Binder) : Nat → Nat → Nat
  | 0, head => head
  | fuel + 1, head =>
    if head < (getNode b head).next then find_tail_loop b fuel (getNode b head).next
    else head

/-- find_tail of the source. -/
def find_tail (b : Binder) (head : Nat) : Nat :=
  find_tail_loop b (b.capacity + 2) head

/-- add_child of the source: allocate one node; when the child field of the
parent is below the parent (no existing chain) link the fresh node as first
child, otherwise append it after the tail of the existing chain; in both
branches the fresh node gets the parent as its next (the end marker), and
the fresh slot is fully overwritten last, as in the source.  Returns 0 on
allocation failure (with the cursor left advanced). -/
def add_child (b : Binder) (parent key : Nat) : Binder × Nat :=
  let r := alloc_nodes b 1
  if r.2 < 0 then (r.1, 0)
  else
    let child := r.2.toNat
    let b1 := r.1
    let current_child := (getNode b1 parent).child
    if current_child < parent then
      let b2 := setNode b1 parent { getNode b1 parent with child := child }
      (setNode b2 child { key := key, next := parent }, child)
    else
      let tail := find_tail b1 current_child
      let b2 := setNode b1 tail { getNode b1 tail with next := child }
      (setNode b2 child { key := key, next := parent }, child)

/-- insert_child of the source. -/
def insert_child (b : Binder) (parent key : Nat) : Binder × Nat :=
  let c := find_child b parent key
  if c ≠ 0 then (b, c) else add_child b parent key

/-- append of the source: allocate one node, link it after the tail of the
chain reachable from head, inheriting the end marker of the old tail.
Returns 0 on allocation failure (with the cursor left advanced). -/
def append (b : Binder) (head key : Nat) : Binder × Nat :=
  let r := alloc_nodes b 1
  if r.2 < 0 then (r.1, 0)
  else
    let index := r.2.toNat
    let b1 := r.1
    let tail := find_tail b1 head
    let addee : Node := { key := key, next := (getNode b1 tail).next }
    let b2 := setNode b1 tail { getNode b1 tail with next := index }
    (setNode b2 index addee, index)

/-- The duplicate scan loop of bind, modelled as written in the source:
check starts at head and the loop runs while check is strictly greater than
head, so the body never executes and the scan always reports no duplicate. -/
def dupScan (b : Binder) (head lastKey backend_index id : Nat) :
    Nat → Nat → Bool
  | 0, _ => false
  | fuel + 1, check =>
    if head < check then
      let bindee := getNode b check
      if bindee.key = lastKey ∧ bindee.backend = backend_index ∧ bindee.id = id then true
      else dupScan b head lastKey backend_index id fuel bindee.next
    else false

/-- The trie walk of bind: one insert_child per translated byte, threading
the state; a zero result from insert_child aborts the walk, the returned
head 0 signalling failure as in the source. -/
def bindWalk : Binder → List Nat → Nat → Nat → Binder × Nat × Nat
  | b, [], head, depth => (b, head, depth)
  | b, k :: rest, head, depth =>
    let r := insert_child b head k
    if r.2 = 0 then (r.1, 0, depth + 1)
    else bindWalk r.1 rest r.2 (depth + 1)

/-- bind of the source.  The raw chord is a C string, a list of nonzero
bytes; the group index is validated against the pool size; any raw byte
with the high bit set (negative as a signed char) is rejected before
translation; the translated buffer is consumed as a C string, hence up to
its first zero byte; the final byte of the consumed chord (read through
the decremented pointer in the source) is modelled as 0 for an empty
translated chord, a value the source only reads out of bounds and that no
claim exercises with a bound root. -/
def bind (b : Binder) (group : Nat) (chord : List Nat) (h id : Nat) :
    Binder × Bool :=
  if b.capacity ≤ group then (b, false)
  else if chord.any (fun c => 0x80 ≤ c) then (b, false)
  else
    match translate_chord 64 chord with
    | none => (b, false)
    | some (emitted, _) =>
      let t := emitted.takeWhile (fun c => c ≠ 0)
      let r1 := add_backend b h
      if r1.2 < 0 then (r1.1, false)
      else
        let backend_index := r1.2.toNat
        let w := bindWalk r1.1 t group 0
        let b2 := w.1
        let head := w.2.1
        let depth := w.2.2
        if head = 0 then (b2, false)
        else
          let lastKey := t.getLastD 0
          if (getNode b2 head).bound then
            if dupScan b2 head lastKey backend_index id (b2.capacity + 2) head then
              (b2, true)
            else
              let r2 := append b2 head lastKey
              if r2.2 = 0 then (r2.1, false)
              else
                let n := getNode r2.1 r2.2
                (setNode r2.1 r2.2
                  { n with backend := backend_index, bound := true,
                           depth := depth, id := id }, true)
          else
            let n := getNode b2 head
            (setNode b2 head
              { n with backend := backend_index, bound := true,
                       depth := depth, id := id }, true)

/-- Modelled from the spec: str_hash lives in core/str_hash.h, which is not
among the provided sources; the spec only says a hash of the name is
computed and that distinct names hashing identically are indistinguishable.
A 32-bit FNV-1a style hash is used; the claims depend only on it being a
fixed function of the name. -/
def str_hash (s : List Nat) : Nat :=
  s.foldl (fun h c => ((h ^^^ c) * 16777619) % 4294967296) 2166136261

/-- The scan loop of get_group, with fuel: walk the group list from the
index given, returning the first index whose stored hash matches, 0 ending
the list with the sentinel -1. -/
def get_group_loop (b : Binder) (hash : Nat) : Nat → Nat → Int
  | 0, _ => -1
  | fuel + 1, index =>
    if index = 0 then -1
    else if (getNode b index).hash = hash then (index : Int)
    else get_group_loop b hash fuel (getNode b index).next

/-- get_group of the source: an absent or empty name yields the default
group root index 1; otherwise the group list is scanned from the next field
of the sentinel at slot 0, and the matching index itself is returned (not
the root next to it). -/
def get_group (b : Binder) (name : Option (List Nat)) : Int :=
  match name with
  | none => 1
  | some [] => 1
  | some s =>
    get_group_loop b (str_hash s) (b.capacity + 2) (getNode b 0).next

/-- create_group of the source: allocate two consecutive slots, fill the
first as a group-list node (hash of the name, is_group set, linked at the
front of the list), zero the second as the group root, and return the root
index. -/
def create_group (b : Binder) (name : List Nat) : Binder × Int :=
  let r := alloc_nodes b 2
  if r.2 < 0 then (r.1, -1)
  else
    let index := r.2.toNat
    let b1 := r.1
    let g0 := getNode b1 index
    let g1 := { g0 with hash := str_hash name, is_group := true,
                        next := (getNode b1 0).next }
    let b2 := setNode b1 index g1
    let b3 := setNode b2 0 { getNode b2 0 with next := index }
    let root := index + 1
    let b4 := setNode b3 root {}
    (b4, (root : Int))

/-! ### The sibling chain structure

A sibling chain hangs off the child field of a parent node p: the walk
follows next while the index is strictly greater than p, exactly as the
loops of find_child and find_tail do.  Chain ns p i L states that the walk
starting at index i visits precisely the indices in L and terminates: every
visited node either points strictly forward or points at an index not
greater than p, which ends the chain.  This is the property the spec states
for sibling chains. -/

inductive Chain (ns : List Node) (p : Nat) : Nat → List Nat → Prop
  | stop : ∀ i, i ≤ p → Chain ns p i []
  | step : ∀ i L, p < i →
      (i < (listGet ns i).next ∨ (listGet ns i).next ≤ p) →
      Chain ns p ((listGet ns i).next) L → Chain ns p i (i :: L)

/-- The chain of the parent p in a binder state, starting at its child. -/
def ChainAt (b : Binder) (p : Nat) (L : List Nat) : Prop :=
  Chain b.nodes p (getNode b p).child L

/-- The path followed by find_tail: next is followed while strictly
increasing, ending at the first index whose next is not greater than it. -/
inductive TailPath (ns : List Node) : Nat → Nat → Prop
  | refl : ∀ s, (listGet ns s).next ≤ s → TailPath ns s s
  | step : ∀ s t, s < (listGet ns s).next →
      TailPath ns ((listGet ns s).next) t → TailPath ns s t

/-- The inductive invariant of the binder state: pool length matches the
capacity, two slots are reserved, all stored links stay below the capacity,
slots at or beyond the cursor never point forward, a node is its own child
only at the sentinel 0, every sibling chain is a terminating forward walk
whose members are allocated, and no index belongs to two distinct chains. -/
structure Inv (b : Binder) : Prop where
  len_eq : b.nodes.length = b.capacity
  cap2 : 2 ≤ b.capacity
  cur2 : 2 ≤ b.next_node
  linkcap : ∀ i, (getNode b i).next < b.capacity ∧ (getNode b i).child < b.capacity
  junk_next : ∀ i, b.next_node ≤ i → (getNode b i).next ≤ i
  junk_child : ∀ i, b.next_node ≤ i → (getNode b i).child ≤ i
  child_self : ∀ i, (getNode b i).child = i → i = 0
  chains : ∀ p, ∃ L, ChainAt b p L ∧ ∀ x ∈ L, x < b.next_node
  disj : ∀ p q Lp Lq x, ChainAt b p Lp → ChainAt b q Lq →
    x ∈ Lp → x ∈ Lq → p = q

/-- The binder states reachable from the constructed state by arbitrary
bind and create_group calls, with arbitrary arguments. -/
inductive Reachable (cap : Nat) : Binder → Prop
  | init : 2 ≤ cap → Reachable cap (initBinder cap)
  | bind_step : ∀ b group chord h id, Reachable cap b →
      Reachable cap (bind b group chord h id).1
  | create_group_step : ∀ b name, Reachable cap b →
      Reachable cap (create_group b name).1

/-! ### Concrete scenario states used by several claims -/

/-- The fresh default binder with a small concrete capacity. -/
def demoBinder : Binder := initBinder 16

/-- First bind of the chord ab with handler 5 and id 7. -/
def rebindOnce : Binder × Bool := bind demoBinder 1 [97, 98] 5 7

/-- Second, identical bind of the chord ab with handler 5 and id 7. -/
def rebindTwice : Binder × Bool := bind rebindOnce.1 1 [97, 98] 5 7

/-- Creating the group vi on a fresh binder. -/
def viBinder : Binder × Int := create_group demoBinder [118, 105]

/-- First bind of the chord ab with handler 5 and an arbitrary id. -/
def coexistOnce (id1 : Nat) : Binder × Bool := bind demoBinder 1 [97, 98] 5 id1

/-- Second bind of the same chord ab with the same handler 5 and another
arbitrary id. -/
def coexistTwice (id1 id2 : Nat) : Binder × Bool :=
  bind (coexistOnce id1).1 1 [97, 98] 5 id2

/-! ### Helper lemmas -/

theorem add_backend_nodes (b : Binder) (h : Nat) :
    (add_backend b h).1.nodes = b.nodes ∧
    (add_backend b h).1.next_node = b.next_node ∧
    (add_backend b h).1.capacity = b.capacity := by
  unfold add_backend
  dsimp only
  split
  · exact ⟨rfl, rfl, rfl⟩
  · split
    · exact ⟨rfl, rfl, rfl⟩
    · exact ⟨rfl, rfl, rfl⟩

theorem find_backend_self (h i : Nat) : find_backend [h] h i = (i : Int) := by
  simp [find_backend]

/-! ### Claim theorems -/

/-- C2: the claim states that translating a caret form yields the control
byte of the following character, and similarly for the backslash C dash
form, translating caret A and backslash C dash a to the single byte 1.  The
code instead masks the caret character itself (giving byte 30) and leaves
the following character literal, and in the alternate form masks the dash
character (giving byte 13) and leaves the following character literal: the
code contradicts its own comment that both forms mean ctrl-x. -/
theorem translate_control_forms_code_bug :
    translate_chord 64 [94, 65] = some ([30, 65], 2) ∧
    translate_chord 64 [92, 67, 45, 97] = some ([13, 97], 2) ∧
    translate_chord 64 [94, 65] ≠ some ([1], 1) ∧
    translate_chord 64 [92, 67, 45, 97] ≠ some ([1], 1) ∧
    translate_chord 64 [92, 67, 120] = none := by decide

/-- C3: the claim states that a chord ending in a lone backslash translates
successfully, truncating the output, with the terminating zero byte written
strictly inside the fixed-size output buffer.  Translation does succeed and
truncate, but the terminator index produced by the code is SIZE + 1 = 65 for
a buffer of SIZE = 64 bytes, an out-of-bounds write: the terminator case
sets the write index to SIZE and the loop increment pushes it one further
before the final zero write. -/
theorem translate_trailing_backslash_code_bug :
    translate_chord 64 [92] = some ([], 65) ∧
    translate_chord 64 [97, 92] = some ([97], 65) ∧
    ¬ (65 < 64) := by decide

/-- C4 counterexample: the claim says allocation fails exactly when the
advanced cursor would strictly exceed the capacity; at cursor 3, count 1 and
capacity 4 the advanced cursor equals the capacity, the claim predicts
success, yet the code returns the sentinel -1. -/
theorem alloc_nodes_boundary_counterexample :
    (alloc_nodes { demoBinder with capacity := 4, next_node := 3 } 1).2 = -1 ∧
    ¬ ({ demoBinder with capacity := 4, next_node := 3 }.next_node + 1 >
        { demoBinder with capacity := 4, next_node := 3 }.capacity) := by decide

/-- C4 (amended): for every count k of at least 1, alloc_nodes returns the
failure sentinel -1 exactly when the cursor plus k would reach or exceed the
capacity (not strictly exceed it), and otherwise returns the old cursor as
the start index of the k reserved slots while advancing the cursor by k. -/
theorem alloc_nodes_contract (b : Binder) (k : Nat) (_hk : 1 ≤ k) :
    ((alloc_nodes b k).2 = -1 ↔ b.capacity ≤ b.next_node + k) ∧
    ((alloc_nodes b k).2 ≠ -1 →
      (alloc_nodes b k).2 = (b.next_node : Int) ∧
      (alloc_nodes b k).1.next_node = b.next_node + k) := by
  unfold alloc_nodes
  dsimp only
  by_cases hlt : b.next_node + k < b.capacity <;> (simp [hlt]; try omega)

/-- C4 witness: the amended contract evaluated on a fresh binder of
capacity 4 with count 1. -/
theorem alloc_nodes_contract_witness :
    ((alloc_nodes (initBinder 4) 1).2 = -1 ↔
      (initBinder 4).capacity ≤ (initBinder 4).next_node + 1) ∧
    ((alloc_nodes (initBinder 4) 1).2 ≠ -1 →
      (alloc_nodes (initBinder 4) 1).2 = ((initBinder 4).next_node : Int) ∧
      (alloc_nodes (initBinder 4) 1).1.next_node = (initBinder 4).next_node + 1) :=
  alloc_nodes_contract (initBinder 4) 1 (by decide)

/-- C9: the cursor is advanced by the requested count even when alloc_nodes
returns the failure sentinel, so capacity consumed by a failed allocation is
never recovered; concretely, a bind call that fails from pool exhaustion on
a capacity 4 binder leaves the cursor at the capacity, strictly above the
cursor before the call. -/
theorem alloc_nodes_failure_consumes (b : Binder) (k : Nat) (hk1 : 1 ≤ k) :
    (alloc_nodes b k).1.next_node = b.next_node + k ∧
    ((alloc_nodes b k).2 = -1 → b.next_node < (alloc_nodes b k).1.next_node) ∧
    (bind (initBinder 4) 1 [97, 98] 5 7).2 = false ∧
    (initBinder 4).next_node = 2 ∧
    (bind (initBinder 4) 1 [97, 98] 5 7).1.next_node = 4 := by
  refine ⟨rfl, ?_, by decide, by decide, by decide⟩
  intro _
  show b.next_node < b.next_node + k
  omega

/-- C9 witness: the statement evaluated at count 1 on a binder whose pool is
exhausted, where the allocation fails and the cursor still advances. -/
theorem alloc_nodes_failure_consumes_witness :
    (alloc_nodes { demoBinder with capacity := 4, next_node := 3 } 1).1.next_node =
      { demoBinder with capacity := 4, next_node := 3 }.next_node + 1 ∧
    ((alloc_nodes { demoBinder with capacity := 4, next_node := 3 } 1).2 = -1 →
      { demoBinder with capacity := 4, next_node := 3 }.next_node <
      (alloc_nodes { demoBinder with capacity := 4, next_node := 3 } 1).1.next_node) ∧
    (bind (initBinder 4) 1 [97, 98] 5 7).2 = false ∧
    (initBinder 4).next_node = 2 ∧
    (bind (initBinder 4) 1 [97, 98] 5 7).1.next_node = 4 :=
  alloc_nodes_failure_consumes { demoBinder with capacity := 4, next_node := 3 } 1
    (by decide)

/-- C5: a chord containing a byte with the high bit set is rejected before
translation, backend registration and allocation, so bind returns failure
with the binder state exactly as before the call. -/
theorem bind_high_bit_rejected (b : Binder) (group : Nat) (chord : List Nat)
    (h id : Nat) (hc : ∃ c ∈ chord, 0x80 ≤ c) :
    bind b group chord h id = (b, false) := by
  have hany : chord.any (fun c => decide (0x80 ≤ c)) = true := by
    rcases hc with ⟨c, hmem, hge⟩
    exact List.any_eq_true.mpr ⟨c, hmem, decide_eq_true hge⟩
  unfold bind
  by_cases hg : b.capacity ≤ group <;> simp [hg, hany]

/-- C5 witness: binding a chord containing the byte 255 on a fresh binder
fails and leaves the binder untouched. -/
theorem bind_high_bit_rejected_witness :
    (∃ c ∈ [97, 255], 0x80 ≤ c) ∧
    bind demoBinder 1 [97, 255] 5 7 = (demoBinder, false) :=
  ⟨⟨255, by decide, by decide⟩,
    bind_high_bit_rejected demoBinder 1 [97, 255] 5 7 ⟨255, by decide, by decide⟩⟩

/-- C1: the claim states that re-binding the identical group, chord,
handler and id is idempotent, leaving exactly one bound terminal node and
an unchanged allocation cursor.  Both calls do succeed, but the duplicate
scan in the code starts with check equal to head and loops only while check
is strictly greater than head, so it never runs: the second, identical bind
appends a second bound terminal node with the same key, backend and id, and
advances the cursor from 4 to 5, contradicting the comment in the code that
a duplicate of the existing bind is checked for. -/
theorem rebind_not_idempotent_code_bug :
    rebindOnce.2 = true ∧ rebindTwice.2 = true ∧
    rebindOnce.1.next_node = 4 ∧ rebindTwice.1.next_node = 5 ∧
    (getNode rebindTwice.1 3).bound = true ∧
    (getNode rebindTwice.1 4).bound = true ∧
    (getNode rebindTwice.1 3).key = 98 ∧ (getNode rebindTwice.1 4).key = 98 ∧
    (getNode rebindTwice.1 3).backend = (getNode rebindTwice.1 4).backend ∧
    (getNode rebindTwice.1 3).id = 7 ∧ (getNode rebindTwice.1 4).id = 7 ∧
    (getNode rebindTwice.1 3).next = 4 ∧
    rebindTwice.1 ≠ rebindOnce.1 := by decide

/-- C6: the claim states that create_group followed by find_group on the
same name returns the same root index.  On a fresh binder create_group for
the name vi allocates the group-list node at 2 and the root at 3 and returns
the root 3, but get_group returns the matching group-list index 2 itself,
one below the root; the other parts of the claim hold: an unknown name gives
the sentinel -1 and an absent name gives the default root 1.  The code is
internally inconsistent, returning a root index for the absent name but a
group-list index from the hash scan. -/
theorem group_roundtrip_code_bug :
    viBinder.2 = 3 ∧
    get_group viBinder.1 (some [118, 105]) = 2 ∧
    get_group viBinder.1 (some [118, 105]) ≠ viBinder.2 ∧
    get_group viBinder.1 (some [109, 105, 115, 115]) = -1 ∧
    get_group viBinder.1 none = 1 ∧
    get_group demoBinder (some [118, 105]) = -1 := by decide

theorem getNode_add_backend (b : Binder) (h i : Nat) :
    getNode (add_backend b h).1 i = getNode b i := by
  unfold getNode
  rw [(add_backend_nodes b h).1]

/-- C10: for every binder, every valid group root index (nonzero and within
the pool) whose node is not yet bound, and every chord that passes the raw
byte check and translates to the empty byte sequence (the empty string in
particular), bind succeeds, marks the root node itself bound with depth 0
and the given id and registered backend index, and allocates no trie node:
the whole result state is the input state with the handler registered and
the single root slot updated, and the allocation cursor is unchanged. -/
theorem bind_empty_chord_marks_root (b : Binder) (g hnd id : Nat)
    (chord tr1 : List Nat) (tr2 : Nat)
    (hg1 : 1 ≤ g) (hg2 : g < b.capacity)
    (hbound : (getNode b g).bound = false)
    (hreg : 0 ≤ (add_backend b hnd).2)
    (hhigh : chord.any (fun c => decide (0x80 ≤ c)) = false)
    (htr : translate_chord 64 chord = some (tr1, tr2))
    (hempty : tr1.takeWhile (fun c => c ≠ 0) = []) :
    bind b g chord hnd id =
      (setNode (add_backend b hnd).1 g
        { getNode b g with backend := (add_backend b hnd).2.toNat,
                           bound := true, depth := 0, id := id }, true) ∧
    (bind b g chord hnd id).1.next_node = b.next_node := by
  have hnotle : ¬ b.capacity ≤ g := by omega
  have hr1 : ¬ (add_backend b hnd).2 < 0 := by omega
  have hgz : ¬ g = 0 := by omega
  have heq : bind b g chord hnd id =
      (setNode (add_backend b hnd).1 g
        { getNode b g with backend := (add_backend b hnd).2.toNat,
                           bound := true, depth := 0, id := id }, true) := by
    unfold bind
    rw [if_neg hnotle, hhigh]
    simp only [Bool.false_eq_true, if_false, htr]
    simp only [hempty, bindWalk]
    rw [if_neg hr1, if_neg hgz, getNode_add_backend, hbound]
    simp only [Bool.false_eq_true, if_false, getNode_add_backend]
  refine ⟨heq, ?_⟩
  rw [heq]
  show (add_backend b hnd).1.next_node = b.next_node
  exact (add_backend_nodes b hnd).2.1

/-- C10 witness: binding the empty chord on the fresh default group. -/
theorem bind_empty_chord_marks_root_witness :
    bind demoBinder 1 [] 5 7 =
      (setNode (add_backend demoBinder 5).1 1
        { getNode demoBinder 1 with backend := (add_backend demoBinder 5).2.toNat,
                                    bound := true, depth := 0, id := 7 }, true) ∧
    (bind demoBinder 1 [] 5 7).1.next_node = demoBinder.next_node :=
  bind_empty_chord_marks_root demoBinder 1 5 7 [] [] 0
    (by decide) (by decide) (by decide) (by decide) (by decide) rfl rfl

/-! ### List access lemmas -/

theorem listSet_length (ns : List Node) (i : Nat) (v : Node) :
    (listSet ns i v).length = ns.length := by
  induction ns generalizing i with
  | nil => rfl
  | cons n rest ih =>
    cases i with
    | zero => rfl
    | succ j => simpa [listSet] using ih j

theorem listGet_listSet_self (ns : List Node) (i : Nat) (v : Node)
    (h : i < ns.length) : listGet (listSet ns i v) i = v := by
  induction ns generalizing i with
  | nil => simp at h
  | cons n rest ih =>
    cases i with
    | zero => rfl
    | succ j =>
      simp only [List.length_cons, Nat.succ_lt_succ_iff] at h
      simpa [listSet, listGet] using ih j h

theorem listGet_listSet_other (ns : List Node) (i j : Nat) (v : Node)
    (h : i ≠ j) : listGet (listSet ns i v) j = listGet ns j := by
  induction ns generalizing i j with
  | nil => rfl
  | cons n rest ih =>
    cases i with
    | zero =>
      cases j with
      | zero => exact absurd rfl h
      | succ j2 => rfl
    | succ i2 =>
      cases j with
      | zero => rfl
      | succ j2 =>
        have : i2 ≠ j2 := fun he => h (by rw [he])
        simpa [listSet, listGet] using ih i2 j2 this

theorem listGet_oob (ns : List Node) (i : Nat) (h : ns.length ≤ i) :
    listGet ns i = {} := by
  induction ns generalizing i with
  | nil => rfl
  | cons n rest ih =>
    cases i with
    | zero => simp at h
    | succ j =>
      simp only [List.length_cons, Nat.succ_le_succ_iff] at h
      simpa [listGet] using ih j h

/-! ### Chain lemmas -/

theorem chain_nil_of_le (ns : List Node) (p s : Nat) (L : List Nat)
    (h : Chain ns p s L) (hs : s ≤ p) : L = [] := by
  cases h with
  | stop _ _ => rfl
  | step _ _ hp _ _ => omega

theorem chain_cons_of_gt (ns : List Node) (p s : Nat) (L : List Nat)
    (h : Chain ns p s L) (hs : p < s) :
    ∃ L2, L = s :: L2 ∧
      (s < (listGet ns s).next ∨ (listGet ns s).next ≤ p) ∧
      Chain ns p ((listGet ns s).next) L2 := by
  cases h with
  | stop _ h2 => omega
  | step _ L2 _ hd hc => exact ⟨L2, rfl, hd, hc⟩

theorem chain_det (ns : List Node) (p s : Nat) (L1 L2 : List Nat)
    (h1 : Chain ns p s L1) (h2 : Chain ns p s L2) : L1 = L2 := by
  induction h1 generalizing L2 with
  | stop i hi => exact (chain_nil_of_le ns p i L2 h2 hi).symm
  | step i L hp hd _ ih =>
    obtain ⟨L3, rfl, _, hc3⟩ := chain_cons_of_gt ns p i L2 h2 hp
    rw [ih L3 hc3]

theorem chain_mem_gt (ns : List Node) (p s : Nat) (L : List Nat)
    (h : Chain ns p s L) : ∀ x ∈ L, p < x := by
  induction h with
  | stop i hi => intro x hx; simp at hx
  | step i L hp hd hc ih =>
    intro x hx
    rcases List.mem_cons.mp hx with rfl | hx2
    · exact hp
    · exact ih x hx2

theorem chain_lb (ns : List Node) (p s : Nat) (L : List Nat)
    (h : Chain ns p s L) : ∀ x ∈ L, s ≤ x := by
  induction h with
  | stop i hi => intro x hx; simp at hx
  | step i L hp hd hc ih =>
    intro x hx
    rcases List.mem_cons.mp hx with rfl | hx2
    · exact Nat.le_refl x
    · rcases hd with hlt | hle
      · exact Nat.le_trans (Nat.le_of_lt hlt) (ih x hx2)
      · rw [chain_nil_of_le ns p _ L hc hle] at hx2
        simp at hx2

theorem chain_pairwise (ns : List Node) (p s : Nat) (L : List Nat)
    (h : Chain ns p s L) : List.Pairwise (· < ·) L := by
  induction h with
  | stop i hi => exact List.Pairwise.nil
  | step i L hp hd hc ih =>
    refine List.Pairwise.cons ?_ ih
    intro x hx
    rcases hd with hlt | hle
    · exact Nat.lt_of_lt_of_le hlt (chain_lb ns p _ L hc x hx)
    · rw [chain_nil_of_le ns p _ L hc hle] at hx
      simp at hx

theorem chain_mem_next_le (ns : List Node) (p s : Nat) (L : List Nat)
    (h : Chain ns p s L) (t : Nat) (ht : t ∈ L)
    (hle : (listGet ns t).next ≤ t) : (listGet ns t).next ≤ p := by
  induction h with
  | stop i hi => simp at ht
  | step i L hp hd hc ih =>
    rcases List.mem_cons.mp ht with rfl | ht2
    · rcases hd with hlt | hle2
      · omega
      · exact hle2
    · exact ih ht2

theorem chain_mem_lt_cap (ns : List Node) (p s : Nat) (L : List Nat) (c : Nat)
    (h : Chain ns p s L) (hs : s < c)
    (hcap : ∀ i, (listGet ns i).next < c) : ∀ x ∈ L, x < c := by
  induction h with
  | stop i hi => intro x hx; simp at hx
  | step i L hp hd hc ih =>
    intro x hx
    rcases List.mem_cons.mp hx with rfl | hx2
    · exact hs
    · exact ih (hcap i) x hx2

theorem chain_frame (ns ns2 : List Node) (p s : Nat) (L : List Nat)
    (h : Chain ns p s L)
    (hfr : ∀ x ∈ L, (listGet ns2 x).next = (listGet ns x).next) :
    Chain ns2 p s L := by
  induction h with
  | stop i hi => exact Chain.stop i hi
  | step i L hp hd hc ih =>
    have hi : (listGet ns2 i).next = (listGet ns i).next :=
      hfr i (List.mem_cons_self i L)
    refine Chain.step i L hp ?_ ?_
    · rw [hi]; exact hd
    · rw [hi]
      exact ih (fun x hx => hfr x (List.mem_cons_of_mem i hx))

theorem tailpath_last (ns : List Node) (s t : Nat)
    (h : TailPath ns s t) : (listGet ns t).next ≤ t := by
  induction h with
  | refl s hs => exact hs
  | step s t hlt hp ih => exact ih

theorem tailpath_lt (ns : List Node) (s t c : Nat)
    (h : TailPath ns s t) (hs : s < c)
    (hcap : ∀ i, (listGet ns i).next < c) : t < c := by
  induction h with
  | refl s hs2 => exact hs
  | step s t hlt hp ih => exact ih (hcap s)

theorem tailpath_chain (ns : List Node) (p m t : Nat) (L : List Nat)
    (htp : TailPath ns m t) (hm : p < m) (hch : Chain ns p m L) : t ∈ L := by
  induction htp generalizing L with
  | refl s hs =>
    obtain ⟨L2, rfl, _, _⟩ := chain_cons_of_gt ns p s L hch hm
    exact List.mem_cons_self s L2
  | step s t hlt hp ih =>
    obtain ⟨L2, rfl, hd, hc⟩ := chain_cons_of_gt ns p s L hch hm
    have hnext : p < (listGet ns s).next := by
      rcases hd with h1 | h2
      · omega
      · omega
    exact List.mem_cons_of_mem s (ih L2 hnext hc)

theorem chain_extend (ns : List Node) (p s t f v k : Nat) (L : List Nat)
    (hch : Chain ns p s L) (ht : t ∈ L)
    (htle : (listGet ns t).next ≤ t) (hv : v ≤ p)
    (hfL : ∀ x ∈ L, x < f) (hpf : p < f)
    (htlen : t < ns.length) (hflen : f < ns.length) :
    Chain (listSet (listSet ns t { listGet ns t with next := f }) f
             { key := k, next := v }) p s (L ++ [f]) := by
  induction hch with
  | stop i hi => simp at ht
  | step i L hp hd hc ih =>
    have hif : i < f := hfL i (List.mem_cons_self i L)
    have hgi : listGet (listSet (listSet ns t { listGet ns t with next := f }) f
        { key := k, next := v }) f = { key := k, next := v } := by
      rw [listGet_listSet_self]
      rw [listSet_length]; exact hflen
    by_cases hti : t = i
    · -- i is the tail: its continuation is empty and it now points at f
      subst hti
      have hle : (listGet ns t).next ≤ p := by
        rcases hd with h1 | h2
        · omega
        · exact h2
      have hnil : L = [] := chain_nil_of_le ns p _ L hc hle
      subst hnil
      have hgt : listGet (listSet (listSet ns t { listGet ns t with next := f }) f
          { key := k, next := v }) t = { listGet ns t with next := f } := by
        rw [listGet_listSet_other _ f t _ (Nat.ne_of_gt hif),
            listGet_listSet_self _ _ _ htlen]
      refine Chain.step t [f] hp ?_ ?_
      · rw [hgt]; left; exact hif
      · rw [hgt]
        show Chain _ p f [f]
        refine Chain.step f [] hpf ?_ ?_
        · rw [hgi]; right; exact hv
        · rw [hgi]
          exact Chain.stop v hv
    · -- i is an interior member: unchanged, recurse
      have ht2 : t ∈ L := (List.mem_cons.mp ht).resolve_left hti
      have hgt : listGet (listSet (listSet ns t { listGet ns t with next := f }) f
          { key := k, next := v }) i = listGet ns i := by
        rw [listGet_listSet_other _ f i _ (Nat.ne_of_gt hif),
            listGet_listSet_other _ t i _ hti]
      have hsplit : (i :: L) ++ [f] = i :: (L ++ [f]) := rfl
      rw [hsplit]
      refine Chain.step i (L ++ [f]) hp ?_ ?_
      · rw [hgt]; exact hd
      · rw [hgt]
        exact ih ht2 (fun x hx => hfL x (List.mem_cons_of_mem i hx))

/-! ### find_tail and find_child specifications -/

theorem find_tail_loop_tailpath (b : Binder)
    (hcap : ∀ i, (getNode b i).next < b.capacity) :
    ∀ fuel s, s < b.capacity → b.capacity ≤ s + fuel →
      TailPath b.nodes s (find_tail_loop b fuel s) := by
  have hg : ∀ i, listGet b.nodes i = getNode b i := fun _ => rfl
  intro fuel
  induction fuel with
  | zero => intro s hs hf; omega
  | succ n ih =>
    intro s hs hf
    simp only [find_tail_loop]
    by_cases hlt : s < (getNode b s).next
    · rw [if_pos hlt]
      refine TailPath.step s _ ?_ ?_
      · rw [hg]; exact hlt
      · rw [hg]; exact ih _ (hcap s) (by have := hcap s; omega)
    · rw [if_neg hlt]
      refine TailPath.refl s ?_
      rw [hg]; omega

theorem find_tail_tailpath (b : Binder)
    (hcap : ∀ i, (getNode b i).next < b.capacity) (s : Nat) (hs : s < b.capacity) :
    TailPath b.nodes s (find_tail b s) :=
  find_tail_loop_tailpath b hcap (b.capacity + 2) s hs (by omega)

theorem find_child_loop_lt (b : Binder) (p k : Nat)
    (hcap : ∀ i, (getNode b i).next < b.capacity) :
    ∀ fuel s, s < b.capacity →
      find_child_loop b p k fuel s = 0 ∨ find_child_loop b p k fuel s < b.capacity := by
  intro fuel
  induction fuel with
  | zero => intro s hs; left; rfl
  | succ n ih =>
    intro s hs
    simp only [find_child_loop]
    by_cases hps : p < s
    · rw [if_pos hps]
      by_cases hk : (getNode b s).key = k
      · rw [if_pos hk]; right; exact hs
      · rw [if_neg hk]; exact ih _ (hcap s)
    · rw [if_neg hps]; left; rfl

theorem find_child_lt (b : Binder) (p k : Nat)
    (hl : ∀ i, (getNode b i).next < b.capacity ∧ (getNode b i).child < b.capacity) :
    find_child b p k = 0 ∨ find_child b p k < b.capacity :=
  find_child_loop_lt b p k (fun i => (hl i).1) _ _ (hl p).2

/-! ### State update characterisations -/

theorem getNode_bump (b : Binder) (m i : Nat) :
    getNode { b with next_node := m } i = getNode b i := rfl

theorem find_tail_loop_bump (b : Binder) (m : Nat) :
    ∀ fuel s, find_tail_loop { b with next_node := m } fuel s = find_tail_loop b fuel s := by
  intro fuel
  induction fuel with
  | zero => intro s; rfl
  | succ n ih =>
    intro s
    simp only [find_tail_loop]
    rw [ih]
    rfl

theorem find_tail_bump (b : Binder) (m s : Nat) :
    find_tail { b with next_node := m } s = find_tail b s := by
  unfold find_tail
  rw [find_tail_loop_bump]

theorem getNode_set2 (b : Binder) (t f : Nat) (vt vf : Node)
    (htlen : t < b.nodes.length) (hflen : f < b.nodes.length) (j : Nat) :
    getNode (setNode (setNode b t vt) f vf) j =
      if j = f then vf else if j = t then vt else getNode b j := by
  show listGet (listSet (listSet b.nodes t vt) f vf) j = _
  by_cases hjf : j = f
  · subst hjf
    rw [if_pos rfl, listGet_listSet_self]
    rw [listSet_length]; exact hflen
  · rw [if_neg hjf, listGet_listSet_other _ f j _ (fun he => hjf he.symm)]
    by_cases hjt : j = t
    · subst hjt
      rw [if_pos rfl, listGet_listSet_self _ _ _ htlen]
    · rw [if_neg hjt, listGet_listSet_other _ t j _ (fun he => hjt he.symm)]
      rfl

theorem set2_len (b : Binder) (t f : Nat) (vt vf : Node) :
    (setNode (setNode b t vt) f vf).nodes.length = b.nodes.length := by
  show (listSet (listSet b.nodes t vt) f vf).length = _
  rw [listSet_length, listSet_length]

/-! ### Invariant transfer lemmas -/

theorem inv_of_eq (b b2 : Binder) (hI : Inv b) (hn : b2.nodes = b.nodes)
    (hc : b2.next_node = b.next_node) (hcap : b2.capacity = b.capacity) : Inv b2 := by
  have hg : ∀ i, getNode b2 i = getNode b i := fun i => by
    show listGet b2.nodes i = listGet b.nodes i
    rw [hn]
  refine ⟨?_, ?_, ?_, ?_, ?_, ?_, ?_, ?_, ?_⟩
  · rw [hn, hcap]; exact hI.len_eq
  · rw [hcap]; exact hI.cap2
  · rw [hc]; exact hI.cur2
  · intro i; rw [hg, hcap]; exact hI.linkcap i
  · intro i hi; rw [hg]; exact hI.junk_next i (by omega)
  · intro i hi; rw [hg]; exact hI.junk_child i (by omega)
  · intro i hi; rw [hg] at hi; exact hI.child_self i hi
  · intro p
    obtain ⟨L, hL, hb⟩ := hI.chains p
    refine ⟨L, ?_, fun x hx => by rw [hc]; exact hb x hx⟩
    show Chain b2.nodes p (getNode b2 p).child L
    rw [hn, hg]
    exact hL
  · intro p q Lp Lq x hp hq hxp hxq
    refine hI.disj p q Lp Lq x ?_ ?_ hxp hxq
    · show Chain b.nodes p (getNode b p).child Lp
      rw [← hn, ← hg]; exact hp
    · show Chain b.nodes q (getNode b q).child Lq
      rw [← hn, ← hg]; exact hq

theorem inv_bump (b : Binder) (m : Nat) (hI : Inv b) (hm : b.next_node ≤ m) :
    Inv { b with next_node := m } := by
  refine ⟨hI.len_eq, hI.cap2, by have := hI.cur2; simp only; omega, ?_, ?_, ?_, ?_, ?_, ?_⟩
  · intro i; exact hI.linkcap i
  · intro i hi
    simp only at hi
    exact hI.junk_next i (by omega)
  · intro i hi
    simp only at hi
    exact hI.junk_child i (by omega)
  · intro i hi; exact hI.child_self i hi
  · intro p
    obtain ⟨L, hL, hb⟩ := hI.chains p
    exact ⟨L, hL, fun x hx => by simp only; exact Nat.lt_of_lt_of_le (hb x hx) hm⟩
  · intro p q Lp Lq x hp hq hxp hxq
    exact hI.disj p q Lp Lq x hp hq hxp hxq

theorem cur2_of_inv (b : Binder) (hI : Inv b) : 2 ≤ b.next_node := hI.cur2

/-- Canonical chain choice: one chain list for every parent. -/
theorem canon_chains (b : Binder) (hI : Inv b) :
    ∃ N : Nat → List Nat, ∀ q, ChainAt b q (N q) ∧ ∀ x ∈ N q, x < b.next_node :=
  ⟨fun q => Classical.choose (hI.chains q), fun q => Classical.choose_spec (hI.chains q)⟩

theorem disj_of_canon (b : Binder) (N : Nat → List Nat)
    (hN : ∀ q, ChainAt b q (N q))
    (hd : ∀ q r x, x ∈ N q → x ∈ N r → q = r) :
    ∀ p q Lp Lq x, ChainAt b p Lp → ChainAt b q Lq → x ∈ Lp → x ∈ Lq → p = q := by
  intro p q Lp Lq x hp hq hxp hxq
  have e1 : Lp = N p := chain_det _ _ _ _ _ hp (hN p)
  have e2 : Lq = N q := chain_det _ _ _ _ _ hq (hN q)
  exact hd p q x (e1 ▸ hxp) (e2 ▸ hxq)

theorem node_mk_next (k v : Nat) : ({ key := k, next := v } : Node).next = v := rfl

theorem node_mk_child (k v : Nat) : ({ key := k, next := v } : Node).child = 0 := rfl

theorem node_set_next_next (n : Node) (f : Nat) : ({ n with next := f }).next = f := rfl

theorem node_set_next_child (n : Node) (f : Nat) :
    ({ n with next := f }).child = n.child := rfl

theorem node_set_child_next (n : Node) (f : Nat) :
    ({ n with child := f }).next = n.next := rfl

theorem node_set_child_child (n : Node) (f : Nat) :
    ({ n with child := f }).child = f := rfl

theorem node_group_next (n : Node) (H nx : Nat) :
    ({ n with hash := H, is_group := true, next := nx } : Node).next = nx := rfl

theorem node_group_child (n : Node) (H nx : Nat) :
    ({ n with hash := H, is_group := true, next := nx } : Node).child = n.child := rfl

theorem node_default_next : ({} : Node).next = 0 := rfl

theorem node_default_child : ({} : Node).child = 0 := rfl

/-- Master preservation lemma: linking a freshly allocated node after a node
t whose next does not point forward, where the fresh node gets next v, and v
is a safe end marker for whichever chain t ends.  This is the common shape
of the else branch of add_child (v is the parent) and of append (v is the
old next of the tail). -/
theorem inv_link_fresh (b : Binder) (t k v : Nat) (hI : Inv b)
    (hal : b.next_node + 1 < b.capacity)
    (ht : t < b.capacity)
    (htle : (getNode b t).next ≤ t)
    (hv : v < b.capacity)
    (hvsafe : ∀ q Lq, ChainAt b q Lq → t ∈ Lq → v ≤ q) :
    Inv (setNode (setNode { b with next_node := b.next_node + 1 } t
          { getNode b t with next := b.next_node })
        b.next_node { key := k, next := v }) := by
  have hcur2 := hI.cur2
  have hcap2 := hI.cap2
  have hlen := hI.len_eq
  have hflt : b.next_node < b.capacity := by omega
  have htlen : t < b.nodes.length := by omega
  have hflen : b.next_node < b.nodes.length := by omega
  have g3 : ∀ j, getNode (setNode (setNode { b with next_node := b.next_node + 1 } t
      { getNode b t with next := b.next_node })
      b.next_node { key := k, next := v }) j =
      if j = b.next_node then { key := k, next := v }
      else if j = t then { getNode b t with next := b.next_node }
      else getNode b j := by
    intro j
    exact getNode_set2 { b with next_node := b.next_node + 1 } t b.next_node _ _
      htlen hflen j
  have hstart : ∀ q, q ≠ b.next_node →
      (getNode (setNode (setNode { b with next_node := b.next_node + 1 } t
        { getNode b t with next := b.next_node })
        b.next_node { key := k, next := v }) q).child = (getNode b q).child := by
    intro q hq
    rw [g3 q, if_neg hq]
    by_cases hqt : q = t
    · subst hqt
      rw [if_pos rfl, node_set_next_child]
    · rw [if_neg hqt]
  obtain ⟨N0, hN0⟩ := canon_chains b hI
  have hN0chain : ∀ q, ChainAt b q (N0 q) := fun q => (hN0 q).1
  have hN0lt : ∀ q x, x ∈ N0 q → x < b.next_node := fun q x hx => (hN0 q).2 x hx
  have hframe : ∀ q, q ≠ b.next_node → (∀ x ∈ N0 q, x ≠ t) →
      ChainAt (setNode (setNode { b with next_node := b.next_node + 1 } t
        { getNode b t with next := b.next_node })
        b.next_node { key := k, next := v }) q (N0 q) := by
    intro q hqf hnt
    show Chain _ q (getNode _ q).child (N0 q)
    rw [hstart q hqf]
    refine chain_frame b.nodes _ q _ (N0 q) (hN0chain q) ?_
    intro x hx
    have hx1 := hN0lt q x hx
    have hxf : x ≠ b.next_node := by omega
    show (getNode _ x).next = (listGet b.nodes x).next
    rw [g3 x, if_neg hxf, if_neg (hnt x hx)]
    rfl
  have hfresh : ChainAt (setNode (setNode { b with next_node := b.next_node + 1 } t
      { getNode b t with next := b.next_node })
      b.next_node { key := k, next := v }) b.next_node [] := by
    show Chain _ b.next_node (getNode _ b.next_node).child []
    rw [g3 b.next_node, if_pos rfl, node_mk_child]
    exact Chain.stop 0 (Nat.zero_le _)
  have hchains : ∃ N1 : Nat → List Nat,
      (∀ q, ChainAt (setNode (setNode { b with next_node := b.next_node + 1 } t
        { getNode b t with next := b.next_node })
        b.next_node { key := k, next := v }) q (N1 q) ∧
        ∀ x ∈ N1 q, x < b.next_node + 1) ∧
      (∀ q r x, x ∈ N1 q → x ∈ N1 r → q = r) := by
    by_cases hmem : ∃ q, t ∈ N0 q
    · obtain ⟨q0, hq0⟩ := hmem
      have htlt : t < b.next_node := hN0lt q0 t hq0
      have hq0t : q0 < t := chain_mem_gt b.nodes q0 _ (N0 q0) (hN0chain q0) t hq0
      have hq0f : q0 < b.next_node := by omega
      refine ⟨fun q => if q = b.next_node then []
        else if q = q0 then N0 q0 ++ [b.next_node] else N0 q, ?_, ?_⟩
      · intro q
        dsimp only
        by_cases hqf : q = b.next_node
        · rw [if_pos hqf]
          subst hqf
          exact ⟨hfresh, by intro x hx; simp at hx⟩
        · rw [if_neg hqf]
          by_cases hqq0 : q = q0
          · rw [if_pos hqq0]
            subst hqq0
            constructor
            · show Chain _ q (getNode _ q).child (N0 q ++ [b.next_node])
              rw [hstart q hqf]
              have hext := chain_extend b.nodes q (getNode b q).child t
                  b.next_node v k (N0 q) (hN0chain q) hq0
                  htle (hvsafe q (N0 q) (hN0chain q) hq0)
                  (fun x hx => hN0lt q x hx) hq0f htlen hflen
              exact hext
            · intro x hx
              rcases List.mem_append.mp hx with hx1 | hx2
              · exact Nat.lt_succ_of_lt (hN0lt q x hx1)
              · simp at hx2; omega
          · rw [if_neg hqq0]
            refine ⟨hframe q hqf ?_, fun x hx => Nat.lt_succ_of_lt (hN0lt q x hx)⟩
            intro x hx he
            subst he
            exact hqq0 (hI.disj q q0 (N0 q) (N0 q0) x (hN0chain q) (hN0chain q0) hx hq0)
      · intro q r x hxq hxr
        dsimp only at hxq hxr
        by_cases hqf : q = b.next_node
        · rw [if_pos hqf] at hxq; simp at hxq
        · rw [if_neg hqf] at hxq
          by_cases hrf : r = b.next_node
          · rw [if_pos hrf] at hxr; simp at hxr
          · rw [if_neg hrf] at hxr
            by_cases hqq0 : q = q0
            · by_cases hr0 : r = q0
              · rw [hqq0, hr0]
              · rw [if_pos hqq0] at hxq
                rw [if_neg hr0] at hxr
                rcases List.mem_append.mp hxq with hx1 | hx2
                · rw [hqq0]
                  exact (hI.disj r q0 (N0 r) (N0 q0) x (hN0chain r)
                    (hN0chain q0) hxr hx1).symm
                · simp at hx2
                  subst hx2
                  exact absurd (hN0lt r _ hxr) (by omega)
            · rw [if_neg hqq0] at hxq
              by_cases hr0 : r = q0
              · rw [if_pos hr0] at hxr
                rcases List.mem_append.mp hxr with hx1 | hx2
                · rw [hr0]
                  exact hI.disj q q0 (N0 q) (N0 q0) x (hN0chain q) (hN0chain q0) hxq hx1
                · simp at hx2
                  subst hx2
                  exact absurd (hN0lt q _ hxq) (by omega)
              · rw [if_neg hr0] at hxr
                exact hI.disj q r (N0 q) (N0 r) x (hN0chain q) (hN0chain r) hxq hxr
    · refine ⟨fun q => if q = b.next_node then [] else N0 q, ?_, ?_⟩
      · intro q
        dsimp only
        by_cases hqf : q = b.next_node
        · rw [if_pos hqf]
          subst hqf
          exact ⟨hfresh, by intro x hx; simp at hx⟩
        · rw [if_neg hqf]
          refine ⟨hframe q hqf ?_, fun x hx => Nat.lt_succ_of_lt (hN0lt q x hx)⟩
          intro x hx he
          subst he
          exact hmem ⟨q, hx⟩
      · intro q r x hxq hxr
        dsimp only at hxq hxr
        by_cases hqf : q = b.next_node
        · rw [if_pos hqf] at hxq; simp at hxq
        · rw [if_neg hqf] at hxq
          by_cases hrf : r = b.next_node
          · rw [if_pos hrf] at hxr; simp at hxr
          · rw [if_neg hrf] at hxr
            exact hI.disj q r (N0 q) (N0 r) x (hN0chain q) (hN0chain r) hxq hxr
  obtain ⟨N1, hN1, hN1disj⟩ := hchains
  refine ⟨?_, ?_, ?_, ?_, ?_, ?_, ?_, ?_, ?_⟩
  · show (listSet (listSet b.nodes t _) b.next_node _).length = b.capacity
    rw [listSet_length, listSet_length]; exact hlen
  · exact hcap2
  · show 2 ≤ b.next_node + 1
    omega
  · intro j
    rw [g3 j]
    by_cases hjf : j = b.next_node
    · rw [if_pos hjf, node_mk_next, node_mk_child]
      refine ⟨hv, ?_⟩
      show 0 < b.capacity
      omega
    · rw [if_neg hjf]
      by_cases hjt : j = t
      · subst hjt
        rw [if_pos rfl, node_set_next_next, node_set_next_child]
        exact ⟨hflt, (hI.linkcap j).2⟩
      · rw [if_neg hjt]
        exact hI.linkcap j
  · intro j hj
    have hj2 : b.next_node + 1 ≤ j := hj
    rw [g3 j]
    have hjf : j ≠ b.next_node := by omega
    rw [if_neg hjf]
    by_cases hjt : j = t
    · subst hjt
      rw [if_pos rfl, node_set_next_next]
      omega
    · rw [if_neg hjt]
      exact hI.junk_next j (by omega)
  · intro j hj
    have hj2 : b.next_node + 1 ≤ j := hj
    rw [g3 j]
    have hjf : j ≠ b.next_node := by omega
    rw [if_neg hjf]
    by_cases hjt : j = t
    · subst hjt
      rw [if_pos rfl, node_set_next_child]
      exact hI.junk_child j (by omega)
    · rw [if_neg hjt]
      exact hI.junk_child j (by omega)
  · intro j hj
    rw [g3 j] at hj
    by_cases hjf : j = b.next_node
    · rw [if_pos hjf, node_mk_child] at hj
      omega
    · rw [if_neg hjf] at hj
      by_cases hjt : j = t
      · subst hjt
        rw [if_pos rfl, node_set_next_child] at hj
        exact hI.child_self j hj
      · rw [if_neg hjt] at hj
        exact hI.child_self j hj
  · intro p
    exact ⟨N1 p, (hN1 p).1, (hN1 p).2⟩
  · exact disj_of_canon _ N1 (fun q => (hN1 q).1) hN1disj

theorem chain_singleton (ns : List Node) (p f : Nat) (hpf : p < f)
    (hnext : (listGet ns f).next ≤ p) : Chain ns p f [f] :=
  Chain.step f [] hpf (Or.inr hnext) (Chain.stop _ hnext)

/-- Preservation lemma for the first branch of add_child: the freshly
allocated node becomes the first child of the parent and carries the parent
as its end marker. -/
theorem inv_child_fresh (b : Binder) (p k : Nat) (hI : Inv b)
    (hal : b.next_node + 1 < b.capacity)
    (hp : p < b.capacity) :
    Inv (setNode (setNode { b with next_node := b.next_node + 1 } p
          { getNode b p with child := b.next_node })
        b.next_node { key := k, next := p }) := by
  have hcur2 := hI.cur2
  have hcap2 := hI.cap2
  have hlen := hI.len_eq
  have hflt : b.next_node < b.capacity := by omega
  have hplen : p < b.nodes.length := by omega
  have hflen : b.next_node < b.nodes.length := by omega
  have g3 : ∀ j, getNode (setNode (setNode { b with next_node := b.next_node + 1 } p
      { getNode b p with child := b.next_node })
      b.next_node { key := k, next := p }) j =
      if j = b.next_node then { key := k, next := p }
      else if j = p then { getNode b p with child := b.next_node }
      else getNode b j := by
    intro j
    exact getNode_set2 { b with next_node := b.next_node + 1 } p b.next_node _ _
      hplen hflen j
  obtain ⟨N0, hN0⟩ := canon_chains b hI
  have hN0chain : ∀ q, ChainAt b q (N0 q) := fun q => (hN0 q).1
  have hN0lt : ∀ q x, x ∈ N0 q → x < b.next_node := fun q x hx => (hN0 q).2 x hx
  have hframe : ∀ q, q ≠ b.next_node → q ≠ p →
      ChainAt (setNode (setNode { b with next_node := b.next_node + 1 } p
        { getNode b p with child := b.next_node })
        b.next_node { key := k, next := p }) q (N0 q) := by
    intro q hqf hqp
    show Chain _ q (getNode _ q).child (N0 q)
    rw [g3 q, if_neg hqf, if_neg hqp]
    refine chain_frame b.nodes _ q _ (N0 q) (hN0chain q) ?_
    intro x hx
    have hx1 := hN0lt q x hx
    have hxf : x ≠ b.next_node := by omega
    show (getNode _ x).next = (listGet b.nodes x).next
    rw [g3 x, if_neg hxf]
    by_cases hxp : x = p
    · rw [if_pos hxp, hxp, node_set_child_next]
      rfl
    · rw [if_neg hxp]
      rfl
  have hfresh : ChainAt (setNode (setNode { b with next_node := b.next_node + 1 } p
      { getNode b p with child := b.next_node })
      b.next_node { key := k, next := p }) b.next_node [] := by
    show Chain _ b.next_node (getNode _ b.next_node).child []
    rw [g3 b.next_node, if_pos rfl, node_mk_child]
    exact Chain.stop 0 (Nat.zero_le _)
  have hpchain : p ≠ b.next_node →
      ChainAt (setNode (setNode { b with next_node := b.next_node + 1 } p
        { getNode b p with child := b.next_node })
        b.next_node { key := k, next := p })
        p (if p < b.next_node then [b.next_node] else []) := by
    intro hpf
    have g3fval : getNode (setNode (setNode { b with next_node := b.next_node + 1 } p
        { getNode b p with child := b.next_node })
        b.next_node { key := k, next := p }) b.next_node = { key := k, next := p } := by
      rw [g3 b.next_node, if_pos rfl]
    show Chain _ p (getNode _ p).child _
    rw [g3 p, if_neg hpf, if_pos rfl, node_set_child_child]
    by_cases hplt : p < b.next_node
    · rw [if_pos hplt]
      exact chain_singleton _ p b.next_node hplt
        (le_of_eq (congrArg Node.next g3fval))
    · rw [if_neg hplt]
      exact Chain.stop b.next_node (by omega)
  refine ⟨?_, ?_, ?_, ?_, ?_, ?_, ?_, ?_, ?_⟩
  · show (listSet (listSet b.nodes p _) b.next_node _).length = b.capacity
    rw [listSet_length, listSet_length]; exact hlen
  · exact hcap2
  · show 2 ≤ b.next_node + 1
    omega
  · intro j
    show (getNode _ j).next < b.capacity ∧ (getNode _ j).child < b.capacity
    rw [g3 j]
    by_cases hjf : j = b.next_node
    · rw [if_pos hjf, node_mk_next, node_mk_child]
      exact ⟨hp, by omega⟩
    · rw [if_neg hjf]
      by_cases hjp : j = p
      · subst hjp
        rw [if_pos rfl, node_set_child_next, node_set_child_child]
        exact ⟨(hI.linkcap j).1, hflt⟩
      · rw [if_neg hjp]
        exact hI.linkcap j
  · intro j hj
    have hj2 : b.next_node + 1 ≤ j := hj
    rw [g3 j]
    have hjf : j ≠ b.next_node := by omega
    rw [if_neg hjf]
    by_cases hjp : j = p
    · subst hjp
      rw [if_pos rfl, node_set_child_next]
      exact hI.junk_next j (by omega)
    · rw [if_neg hjp]
      exact hI.junk_next j (by omega)
  · intro j hj
    have hj2 : b.next_node + 1 ≤ j := hj
    rw [g3 j]
    have hjf : j ≠ b.next_node := by omega
    rw [if_neg hjf]
    by_cases hjp : j = p
    · subst hjp
      rw [if_pos rfl, node_set_child_child]
      omega
    · rw [if_neg hjp]
      exact hI.junk_child j (by omega)
  · intro j hj
    rw [g3 j] at hj
    by_cases hjf : j = b.next_node
    · rw [if_pos hjf, node_mk_child] at hj
      omega
    · rw [if_neg hjf] at hj
      by_cases hjp : j = p
      · rw [if_pos hjp, node_set_child_child] at hj
        omega
      · rw [if_neg hjp] at hj
        exact hI.child_self j hj
  · intro q
    by_cases hqf : q = b.next_node
    · subst hqf
      exact ⟨[], hfresh, by intro x hx; simp at hx⟩
    · by_cases hqp : q = p
      · subst hqp
        refine ⟨if q < b.next_node then [b.next_node] else [], hpchain hqf, ?_⟩
        intro x hx
        show x < b.next_node + 1
        by_cases hqlt : q < b.next_node
        · rw [if_pos hqlt] at hx
          simp at hx
          omega
        · rw [if_neg hqlt] at hx
          simp at hx
      · exact ⟨N0 q, hframe q hqf hqp,
          fun x hx => Nat.lt_succ_of_lt (hN0lt q x hx)⟩
  · have hN1 : ∀ q, ChainAt (setNode (setNode { b with next_node := b.next_node + 1 } p
        { getNode b p with child := b.next_node })
        b.next_node { key := k, next := p }) q
        (if q = b.next_node then []
         else if q = p then (if p < b.next_node then [b.next_node] else [])
         else N0 q) := by
      intro q
      by_cases hqf : q = b.next_node
      · rw [if_pos hqf]; subst hqf; exact hfresh
      · rw [if_neg hqf]
        by_cases hqp : q = p
        · rw [if_pos hqp]; subst hqp; exact hpchain hqf
        · rw [if_neg hqp]; exact hframe q hqf hqp
    refine disj_of_canon _ _ hN1 ?_
    intro q r x hxq hxr
    by_cases hqf : q = b.next_node
    · rw [if_pos hqf] at hxq; simp at hxq
    · rw [if_neg hqf] at hxq
      by_cases hrf : r = b.next_node
      · rw [if_pos hrf] at hxr; simp at hxr
      · rw [if_neg hrf] at hxr
        by_cases hqp : q = p
        · rw [if_pos hqp] at hxq
          by_cases hrp : r = p
          · rw [hqp, hrp]
          · rw [if_neg hrp] at hxr
            by_cases hplt : p < b.next_node
            · rw [if_pos hplt] at hxq
              simp at hxq
              subst hxq
              exact absurd (hN0lt r _ hxr) (by omega)
            · rw [if_neg hplt] at hxq
              simp at hxq
        · rw [if_neg hqp] at hxq
          by_cases hrp : r = p
          · rw [if_pos hrp] at hxr
            by_cases hplt : p < b.next_node
            · rw [if_pos hplt] at hxr
              simp at hxr
              subst hxr
              exact absurd (hN0lt q _ hxq) (by omega)
            · rw [if_neg hplt] at hxr
              simp at hxr
          · rw [if_neg hrp] at hxr
            exact hI.disj q r (N0 q) (N0 r) x (hN0chain q) (hN0chain r) hxq hxr

/-! ### Branch equations for the allocating operations -/

theorem add_child_fail (b : Binder) (p k : Nat) (h : ¬ b.next_node + 1 < b.capacity) :
    add_child b p k = ({ b with next_node := b.next_node + 1 }, 0) := by
  unfold add_child alloc_nodes
  simp [h]

theorem add_child_first (b : Binder) (p k : Nat)
    (h : b.next_node + 1 < b.capacity) (hch : (getNode b p).child < p) :
    add_child b p k =
      (setNode (setNode { b with next_node := b.next_node + 1 } p
          { getNode b p with child := b.next_node })
        b.next_node { key := k, next := p }, b.next_node) := by
  unfold add_child alloc_nodes
  dsimp only
  rw [if_pos h]
  rw [if_neg (show ¬ (b.next_node : Int) < 0 by omega)]
  rw [Int.toNat_natCast]
  rw [getNode_bump, if_pos hch]

theorem add_child_else (b : Binder) (p k : Nat)
    (h : b.next_node + 1 < b.capacity) (hch : ¬ (getNode b p).child < p) :
    add_child b p k =
      (setNode (setNode { b with next_node := b.next_node + 1 }
          (find_tail b (getNode b p).child)
          { getNode b (find_tail b (getNode b p).child) with next := b.next_node })
        b.next_node { key := k, next := p }, b.next_node) := by
  unfold add_child alloc_nodes
  dsimp only
  rw [if_pos h]
  rw [if_neg (show ¬ (b.next_node : Int) < 0 by omega)]
  rw [Int.toNat_natCast]
  simp only [getNode_bump, find_tail_bump]
  rw [if_neg hch]

theorem append_fail (b : Binder) (head k : Nat)
    (h : ¬ b.next_node + 1 < b.capacity) :
    append b head k = ({ b with next_node := b.next_node + 1 }, 0) := by
  unfold append alloc_nodes
  simp [h]

theorem append_eq (b : Binder) (head k : Nat) (h : b.next_node + 1 < b.capacity) :
    append b head k =
      (setNode (setNode { b with next_node := b.next_node + 1 }
          (find_tail b head)
          { getNode b (find_tail b head) with next := b.next_node })
        b.next_node
        { key := k, next := (getNode b (find_tail b head)).next }, b.next_node) := by
  unfold append alloc_nodes
  dsimp only
  rw [if_neg (show ¬ (if b.next_node + 1 < b.capacity then (b.next_node : Int) else -1) < 0 by
    rw [if_pos h]; omega)]
  rw [if_pos h, Int.toNat_natCast, find_tail_bump, getNode_bump]

/-! ### Invariant preservation for the operations -/

theorem inv_set_nonlink (b : Binder) (i : Nat) (v : Node) (hI : Inv b)
    (hnext : v.next = (getNode b i).next) (hchild : v.child = (getNode b i).child) :
    Inv (setNode b i v) := by
  have hgn : ∀ j, (getNode (setNode b i v) j).next = (getNode b j).next ∧
      (getNode (setNode b i v) j).child = (getNode b j).child := by
    intro j
    by_cases hlen : i < b.nodes.length
    · by_cases hij : j = i
      · subst hij
        show (listGet (listSet b.nodes j v) j).next = _ ∧
          (listGet (listSet b.nodes j v) j).child = _
        rw [listGet_listSet_self _ _ _ hlen]
        exact ⟨hnext, hchild⟩
      · show (listGet (listSet b.nodes i v) j).next = _ ∧
          (listGet (listSet b.nodes i v) j).child = _
        rw [listGet_listSet_other _ i j _ (fun he => hij he.symm)]
        exact ⟨rfl, rfl⟩
    · show (listGet (listSet b.nodes i v) j).next = _ ∧
        (listGet (listSet b.nodes i v) j).child = _
      have hset : listSet b.nodes i v = b.nodes := by
        clear hnext hchild
        revert i
        induction b.nodes with
        | nil => intro i _; rfl
        | cons n rest ih =>
          intro i hlen
          cases i with
          | zero => exact absurd (by simp) hlen
          | succ j2 =>
            simp only [List.length_cons, not_lt] at hlen
            show n :: listSet rest j2 v = n :: rest
            rw [ih j2 (by simp; omega)]
      rw [hset]
      exact ⟨rfl, rfl⟩
  refine ⟨?_, hI.cap2, hI.cur2, ?_, ?_, ?_, ?_, ?_, ?_⟩
  · show (listSet b.nodes i v).length = b.capacity
    rw [listSet_length]; exact hI.len_eq
  · intro j
    rw [(hgn j).1, (hgn j).2]
    exact hI.linkcap j
  · intro j hj
    rw [(hgn j).1]
    exact hI.junk_next j hj
  · intro j hj
    rw [(hgn j).2]
    exact hI.junk_child j hj
  · intro j hj
    rw [(hgn j).2] at hj
    exact hI.child_self j hj
  · intro p
    obtain ⟨L, hL, hb2⟩ := hI.chains p
    refine ⟨L, ?_, hb2⟩
    show Chain _ p (getNode _ p).child L
    rw [(hgn p).2]
    exact chain_frame b.nodes _ p _ L hL (fun x _ => (hgn x).1)
  · intro p q Lp Lq x hp hq hxp hxq
    refine hI.disj p q Lp Lq x ?_ ?_ hxp hxq
    · show Chain b.nodes p (getNode b p).child Lp
      rw [← (hgn p).2]
      exact chain_frame _ b.nodes p _ Lp hp (fun x _ => ((hgn x).1).symm)
    · show Chain b.nodes q (getNode b q).child Lq
      rw [← (hgn q).2]
      exact chain_frame _ b.nodes q _ Lq hq (fun x _ => ((hgn x).1).symm)

theorem add_child_spec (b : Binder) (p k : Nat) (hI : Inv b) (hp : p < b.capacity) :
    Inv (add_child b p k).1 ∧ (add_child b p k).1.capacity = b.capacity ∧
    (add_child b p k).2 < b.capacity := by
  by_cases hal : b.next_node + 1 < b.capacity
  · by_cases hch : (getNode b p).child < p
    · rw [add_child_first b p k hal hch]
      exact ⟨inv_child_fresh b p k hI hal hp, rfl, by omega⟩
    · rw [add_child_else b p k hal hch]
      have hscap : (getNode b p).child < b.capacity := (hI.linkcap p).2
      have htp := find_tail_tailpath b (fun i => (hI.linkcap i).1) _ hscap
      have ht : find_tail b (getNode b p).child < b.capacity :=
        tailpath_lt b.nodes _ _ b.capacity htp hscap (fun i => (hI.linkcap i).1)
      have htle := tailpath_last b.nodes _ _ htp
      have hvsafe : ∀ q Lq, ChainAt b q Lq →
          find_tail b (getNode b p).child ∈ Lq → p ≤ q := by
        intro q Lq hq htq
        rcases Nat.lt_or_ge p (getNode b p).child with hlt | hge
        · obtain ⟨Lp, hLp, _⟩ := hI.chains p
          have htmem : find_tail b (getNode b p).child ∈ Lp :=
            tailpath_chain b.nodes p _ _ Lp htp hlt hLp
          have := hI.disj p q Lp Lq _ hLp hq htmem htq
          omega
        · have hsp : (getNode b p).child = p := by omega
          have hp0 : p = 0 := hI.child_self p hsp
          omega
      exact ⟨inv_link_fresh b _ k p hI hal ht htle hp hvsafe, rfl, by omega⟩
  · rw [add_child_fail b p k hal]
    have := hI.cap2
    exact ⟨inv_bump b _ hI (by omega), rfl, by simp only; omega⟩

theorem insert_child_spec (b : Binder) (p k : Nat) (hI : Inv b) (hp : p < b.capacity) :
    Inv (insert_child b p k).1 ∧ (insert_child b p k).1.capacity = b.capacity ∧
    (insert_child b p k).2 < b.capacity := by
  unfold insert_child
  dsimp only
  by_cases hc : find_child b p k = 0
  · rw [if_neg (by simpa using hc)]
    exact add_child_spec b p k hI hp
  · rw [if_pos (by simpa using hc)]
    rcases find_child_lt b p k hI.linkcap with h0 | hlt
    · exact absurd h0 hc
    · exact ⟨hI, rfl, hlt⟩

theorem bindWalk_spec (t : List Nat) : ∀ (b : Binder) (head depth : Nat),
    Inv b → head < b.capacity →
    Inv (bindWalk b t head depth).1 ∧ (bindWalk b t head depth).1.capacity = b.capacity ∧
    (bindWalk b t head depth).2.1 < b.capacity := by
  induction t with
  | nil =>
    intro b head depth hI hh
    exact ⟨hI, rfl, hh⟩
  | cons c rest ih =>
    intro b head depth hI hh
    simp only [bindWalk]
    obtain ⟨h1, h2, h3⟩ := insert_child_spec b head c hI hh
    by_cases hz : (insert_child b head c).2 = 0
    · rw [if_pos hz]
      refine ⟨h1, h2, ?_⟩
      show (0 : Nat) < b.capacity
      have := hI.cap2
      omega
    · rw [if_neg hz]
      have hrec := ih (insert_child b head c).1 (insert_child b head c).2 (depth + 1)
        h1 (by rw [h2]; exact h3)
      exact ⟨hrec.1, hrec.2.1.trans h2, by have := hrec.2.2; rw [h2] at this; exact this⟩

theorem append_spec (b : Binder) (head k : Nat) (hI : Inv b) (hh : head < b.capacity) :
    Inv (append b head k).1 ∧ (append b head k).1.capacity = b.capacity := by
  by_cases hal : b.next_node + 1 < b.capacity
  · rw [append_eq b head k hal]
    have htp := find_tail_tailpath b (fun i => (hI.linkcap i).1) head hh
    have ht : find_tail b head < b.capacity :=
      tailpath_lt b.nodes _ _ b.capacity htp hh (fun i => (hI.linkcap i).1)
    have htle := tailpath_last b.nodes _ _ htp
    refine ⟨inv_link_fresh b _ k _ hI hal ht htle
      (hI.linkcap _).1 ?_, rfl⟩
    intro q Lq hq htq
    exact chain_mem_next_le b.nodes q _ Lq hq _ htq htle
  · rw [append_fail b head k hal]
    exact ⟨inv_bump b _ hI (by omega), rfl⟩

theorem add_backend_inv (b : Binder) (h : Nat) (hI : Inv b) : Inv (add_backend b h).1 :=
  inv_of_eq b _ hI (add_backend_nodes b h).1 (add_backend_nodes b h).2.1
    (add_backend_nodes b h).2.2

theorem bind_inv (b : Binder) (g : Nat) (chord : List Nat) (hnd id : Nat) (hI : Inv b) :
    Inv (bind b g chord hnd id).1 ∧ (bind b g chord hnd id).1.capacity = b.capacity := by
  unfold bind
  dsimp only
  split
  · exact ⟨hI, rfl⟩
  · rename_i hg
    split
    · exact ⟨hI, rfl⟩
    · rename_i hhb
      split
      · exact ⟨hI, rfl⟩
      · rename_i hopt emitted ti htr
        have hgcap : g < b.capacity := by omega
        split
        · exact ⟨add_backend_inv b hnd hI, (add_backend_nodes b hnd).2.2⟩
        · rename_i hr1
          have hIb1 := add_backend_inv b hnd hI
          have hcap1 := (add_backend_nodes b hnd).2.2
          obtain ⟨hIw, hcapw, hheadw⟩ :=
            bindWalk_spec (emitted.takeWhile (fun c => c ≠ 0)) (add_backend b hnd).1
              g 0 hIb1 (by rw [hcap1]; exact hgcap)
          have hcapw2 : (bindWalk (add_backend b hnd).1
              (emitted.takeWhile (fun c => c ≠ 0)) g 0).1.capacity = b.capacity :=
            hcapw.trans hcap1
          have hheadw2 : (bindWalk (add_backend b hnd).1
              (emitted.takeWhile (fun c => c ≠ 0)) g 0).2.1 <
              (bindWalk (add_backend b hnd).1
                (emitted.takeWhile (fun c => c ≠ 0)) g 0).1.capacity := by
            rw [hcapw2, ← hcap1]
            exact hheadw
          split
          · exact ⟨hIw, hcapw2⟩
          · split
            · split
              · exact ⟨hIw, hcapw2⟩
              · obtain ⟨hIa, hcapa⟩ := append_spec _ _
                  ((emitted.takeWhile (fun c => c ≠ 0)).getLastD 0) hIw hheadw2
                split
                · exact ⟨hIa, hcapa.trans hcapw2⟩
                · refine ⟨inv_set_nonlink _ _ _ hIa rfl rfl, ?_⟩
                  show (append _ _ _).1.capacity = b.capacity
                  exact hcapa.trans hcapw2
            · refine ⟨inv_set_nonlink _ _ _ hIw rfl rfl, ?_⟩
              show (bindWalk _ _ _ _).1.capacity = b.capacity
              exact hcapw2

theorem create_group_eq (b : Binder) (name : List Nat)
    (h : b.next_node + 2 < b.capacity) (h2 : 2 ≤ b.next_node) :
    create_group b name =
      (setNode (setNode (setNode { b with next_node := b.next_node + 2 } b.next_node
          { getNode b b.next_node with
            hash := str_hash name, is_group := true, next := (getNode b 0).next })
        0 { getNode b 0 with next := b.next_node })
        (b.next_node + 1) {}, ((b.next_node + 1 : Nat) : Int)) := by
  unfold create_group alloc_nodes
  dsimp only
  rw [if_pos h]
  rw [if_neg (show ¬ (b.next_node : Int) < 0 by omega)]
  simp only [Int.toNat_natCast, getNode_bump]
  have hz : getNode (setNode { b with next_node := b.next_node + 2 } b.next_node
      { getNode b b.next_node with
          hash := str_hash name, is_group := true, next := (getNode b 0).next }) 0 = getNode b 0 := by
    show listGet (listSet b.nodes b.next_node _) 0 = listGet b.nodes 0
    exact listGet_listSet_other _ b.next_node 0 _ (by omega)
  rw [hz]

/-- Preservation of the invariant by a successful create_group. -/
theorem inv_create (b : Binder) (name : List Nat) (hI : Inv b)
    (hal : b.next_node + 2 < b.capacity) :
    Inv (setNode (setNode (setNode { b with next_node := b.next_node + 2 } b.next_node
          { getNode b b.next_node with
            hash := str_hash name, is_group := true, next := (getNode b 0).next })
        0 { getNode b 0 with next := b.next_node })
        (b.next_node + 1) {}) := by
  have hcur2 := hI.cur2
  have hcap2 := hI.cap2
  have hlen := hI.len_eq
  have hilen : b.next_node < b.nodes.length := by omega
  have hrlen : b.next_node + 1 < b.nodes.length := by omega
  have h0len : (0 : Nat) < b.nodes.length := by omega
  have g4 : ∀ j, getNode (setNode (setNode (setNode { b with next_node := b.next_node + 2 }
      b.next_node
      { getNode b b.next_node with
          hash := str_hash name, is_group := true, next := (getNode b 0).next })
      0 { getNode b 0 with next := b.next_node })
      (b.next_node + 1) {}) j =
      if j = b.next_node + 1 then {}
      else if j = 0 then { getNode b 0 with next := b.next_node }
      else if j = b.next_node then
        { getNode b b.next_node with
          hash := str_hash name, is_group := true, next := (getNode b 0).next }
      else getNode b j := by
    intro j
    show listGet (listSet (listSet (listSet b.nodes b.next_node _) 0 _)
      (b.next_node + 1) _) j = _
    by_cases hjr : j = b.next_node + 1
    · subst hjr
      rw [if_pos rfl, listGet_listSet_self]
      rw [listSet_length, listSet_length]
      exact hrlen
    · rw [if_neg hjr, listGet_listSet_other _ _ j _ (fun he => hjr he.symm)]
      by_cases hj0 : j = 0
      · subst hj0
        rw [if_pos rfl, listGet_listSet_self]
        rw [listSet_length]
        exact h0len
      · rw [if_neg hj0, listGet_listSet_other _ 0 j _ (fun he => hj0 he.symm)]
        by_cases hji : j = b.next_node
        · subst hji
          rw [if_pos rfl, listGet_listSet_self _ _ _ hilen]
        · rw [if_neg hji, listGet_listSet_other _ _ j _ (fun he => hji he.symm)]
          rfl
  obtain ⟨N0, hN0⟩ := canon_chains b hI
  have hN0chain : ∀ q, ChainAt b q (N0 q) := fun q => (hN0 q).1
  have hN0lt : ∀ q x, x ∈ N0 q → x < b.next_node := fun q x hx => (hN0 q).2 x hx
  have hframe : ∀ q, q ≠ b.next_node → q ≠ b.next_node + 1 →
      ChainAt (setNode (setNode (setNode { b with next_node := b.next_node + 2 } b.next_node
          { getNode b b.next_node with
            hash := str_hash name, is_group := true, next := (getNode b 0).next })
        0 { getNode b 0 with next := b.next_node })
        (b.next_node + 1) {}) q (N0 q) := by
    intro q hqi hqr
    show Chain _ q (getNode _ q).child (N0 q)
    have hstart : (getNode (setNode (setNode (setNode
        { b with next_node := b.next_node + 2 } b.next_node
        { getNode b b.next_node with
          hash := str_hash name, is_group := true, next := (getNode b 0).next })
        0 { getNode b 0 with next := b.next_node })
        (b.next_node + 1) {}) q).child = (getNode b q).child := by
      rw [g4 q, if_neg hqr]
      by_cases hq0 : q = 0
      · rw [if_pos hq0, node_set_next_child]
        rw [hq0]
      · rw [if_neg hq0, if_neg hqi]
    rw [hstart]
    refine chain_frame b.nodes _ q _ (N0 q) (hN0chain q) ?_
    intro x hx
    have hx1 := hN0lt q x hx
    have hx2 : q < x := chain_mem_gt b.nodes q _ (N0 q) (hN0chain q) x hx
    have hx0 : x ≠ 0 := by omega
    show (getNode _ x).next = (listGet b.nodes x).next
    rw [g4 x, if_neg (by omega), if_neg hx0, if_neg (by omega)]
    rfl
  refine ⟨?_, hcap2, ?_, ?_, ?_, ?_, ?_, ?_, ?_⟩
  · show (listSet (listSet (listSet b.nodes _ _) 0 _) _ _).length = b.capacity
    rw [listSet_length, listSet_length, listSet_length]
    exact hlen
  · show 2 ≤ b.next_node + 2
    omega
  · intro j
    show (getNode _ j).next < b.capacity ∧ (getNode _ j).child < b.capacity
    rw [g4 j]
    by_cases hjr : j = b.next_node + 1
    · rw [if_pos hjr, node_default_next, node_default_child]
      exact ⟨by omega, by omega⟩
    · rw [if_neg hjr]
      by_cases hj0 : j = 0
      · rw [if_pos hj0, node_set_next_next, node_set_next_child]
        exact ⟨by omega, (hI.linkcap 0).2⟩
      · rw [if_neg hj0]
        by_cases hji : j = b.next_node
        · subst hji
          rw [if_pos rfl, node_group_next, node_group_child]
          exact ⟨(hI.linkcap 0).1, (hI.linkcap b.next_node).2⟩
        · rw [if_neg hji]
          exact hI.linkcap j
  · intro j hj
    have hj2 : b.next_node + 2 ≤ j := hj
    rw [g4 j]
    rw [if_neg (by omega), if_neg (by omega), if_neg (by omega)]
    exact hI.junk_next j (by omega)
  · intro j hj
    have hj2 : b.next_node + 2 ≤ j := hj
    rw [g4 j]
    rw [if_neg (by omega), if_neg (by omega), if_neg (by omega)]
    exact hI.junk_child j (by omega)
  · intro j hj
    rw [g4 j] at hj
    by_cases hjr : j = b.next_node + 1
    · rw [if_pos hjr, node_default_child] at hj
      omega
    · rw [if_neg hjr] at hj
      by_cases hj0 : j = 0
      · exact hj0
      · rw [if_neg hj0] at hj
        by_cases hji : j = b.next_node
        · subst hji
          rw [if_pos rfl, node_group_child] at hj
          exact hI.child_self b.next_node hj
        · rw [if_neg hji] at hj
          exact hI.child_self j hj
  · intro q
    by_cases hqi : q = b.next_node
    · subst hqi
      refine ⟨[], ?_, by intro x hx; simp at hx⟩
      show Chain _ b.next_node (getNode _ b.next_node).child []
      rw [g4 b.next_node, if_neg (by omega), if_neg (by omega), if_pos rfl,
        node_group_child]
      exact Chain.stop _ (hI.junk_child b.next_node (Nat.le_refl _))
    · by_cases hqr : q = b.next_node + 1
      · refine ⟨[], ?_, by intro x hx; simp at hx⟩
        show Chain _ q (getNode _ q).child []
        rw [g4 q, if_pos hqr, node_default_child]
        exact Chain.stop 0 (Nat.zero_le q)
      · exact ⟨N0 q, hframe q hqi hqr,
          fun x hx => by have := hN0lt q x hx; show x < b.next_node + 2; omega⟩
  · have hN1 : ∀ q, ChainAt (setNode (setNode (setNode
        { b with next_node := b.next_node + 2 } b.next_node
        { getNode b b.next_node with
          hash := str_hash name, is_group := true, next := (getNode b 0).next })
        0 { getNode b 0 with next := b.next_node })
        (b.next_node + 1) {}) q
        (if q = b.next_node then [] else if q = b.next_node + 1 then [] else N0 q) := by
      intro q
      by_cases hqi : q = b.next_node
      · rw [if_pos hqi]
        subst hqi
        show Chain _ b.next_node (getNode _ b.next_node).child []
        rw [g4 b.next_node, if_neg (by omega), if_neg (by omega), if_pos rfl,
          node_group_child]
        exact Chain.stop _ (hI.junk_child b.next_node (Nat.le_refl _))
      · rw [if_neg hqi]
        by_cases hqr : q = b.next_node + 1
        · rw [if_pos hqr]
          show Chain _ q (getNode _ q).child []
          rw [g4 q, if_pos hqr, node_default_child]
          exact Chain.stop 0 (Nat.zero_le q)
        · rw [if_neg hqr]
          exact hframe q hqi hqr
    refine disj_of_canon _ _ hN1 ?_
    intro q r x hxq hxr
    by_cases hqi : q = b.next_node
    · rw [if_pos hqi] at hxq; simp at hxq
    · rw [if_neg hqi] at hxq
      by_cases hqr : q = b.next_node + 1
      · rw [if_pos hqr] at hxq; simp at hxq
      · rw [if_neg hqr] at hxq
        by_cases hri : r = b.next_node
        · rw [if_pos hri] at hxr; simp at hxr
        · rw [if_neg hri] at hxr
          by_cases hrr : r = b.next_node + 1
          · rw [if_pos hrr] at hxr; simp at hxr
          · rw [if_neg hrr] at hxr
            exact hI.disj q r (N0 q) (N0 r) x (hN0chain q) (hN0chain r) hxq hxr

theorem create_group_inv (b : Binder) (name : List Nat) (hI : Inv b) :
    Inv (create_group b name).1 ∧ (create_group b name).1.capacity = b.capacity := by
  by_cases hal : b.next_node + 2 < b.capacity
  · rw [create_group_eq b name hal hI.cur2]
    exact ⟨inv_create b name hI hal, rfl⟩
  · have : create_group b name = ({ b with next_node := b.next_node + 2 }, -1) := by
      unfold create_group alloc_nodes
      simp [hal]
    rw [this]
    exact ⟨inv_bump b _ hI (by omega), rfl⟩

theorem listGet_replicate (n i : Nat) : listGet (List.replicate n {}) i = {} := by
  induction n generalizing i with
  | zero => rfl
  | succ m ih =>
    cases i with
    | zero => rfl
    | succ j => simpa [List.replicate, listGet] using ih j

theorem initBinder_inv (cap : Nat) (hcap : 2 ≤ cap) : Inv (initBinder cap) := by
  have hg : ∀ i, getNode (initBinder cap) i = {} := fun i => listGet_replicate cap i
  refine ⟨?_, hcap, Nat.le_refl 2, ?_, ?_, ?_, ?_, ?_, ?_⟩
  · show (List.replicate cap ({} : Node)).length = cap
    exact List.length_replicate cap ({} : Node)
  · intro i
    rw [hg i, node_default_next, node_default_child]
    constructor
    · show (0 : Nat) < cap
      omega
    · show (0 : Nat) < cap
      omega
  · intro i _
    rw [hg i, node_default_next]
    exact Nat.zero_le i
  · intro i _
    rw [hg i, node_default_child]
    exact Nat.zero_le i
  · intro i hi
    rw [hg i, node_default_child] at hi
    omega
  · intro p
    refine ⟨[], ?_, by intro x hx; simp at hx⟩
    show Chain _ p (getNode _ p).child []
    rw [hg p, node_default_child]
    exact Chain.stop 0 (Nat.zero_le p)
  · intro p q Lp Lq x hp hq hxp hxq
    have : Lp = [] := by
      refine chain_nil_of_le _ p _ Lp hp ?_
      rw [hg p, node_default_child]
      exact Nat.zero_le p
    subst this
    simp at hxp

/-- Every reachable binder state satisfies the full invariant. -/
theorem reachable_inv (cap : Nat) (b : Binder) (h : Reachable cap b) : Inv b := by
  induction h with
  | init h2 => exact initBinder_inv cap h2
  | bind_step b2 group chord hnd id _ ih => exact (bind_inv b2 group chord hnd id ih).1
  | create_group_step b2 name _ ih => exact (create_group_inv b2 name ih).1

/-- C8: in every binder state reachable from the initial state by any
sequence of bind and create_group calls, every sibling chain is a finite
forward walk: starting from the child field of any parent p, the visited
indices form a list along which every node either points strictly forward
(so indices strictly increase among true siblings, making the chain
acyclic) or points at an index not greater than p, which ends the chain;
the members are pairwise increasing, above the parent and inside the pool,
so the scan loops of find_child and find_tail terminate on every chain. -/
theorem sibling_chains_wf (cap : Nat) (b : Binder) (hb : Reachable cap b) (p : Nat) :
    ∃ L, ChainAt b p L ∧ List.Pairwise (· < ·) L ∧
      ∀ x ∈ L, p < x ∧ x < b.capacity := by
  have hI := reachable_inv cap b hb
  obtain ⟨L, hL, hbnd⟩ := hI.chains p
  refine ⟨L, hL, chain_pairwise _ _ _ _ hL, fun x hx => ⟨chain_mem_gt _ _ _ _ hL x hx, ?_⟩⟩
  exact chain_mem_lt_cap b.nodes p _ L b.capacity hL (hI.linkcap p).2
    (fun i => (hI.linkcap i).1) x hx

/-- C8 witness: the chains of the state reached by one bind on a fresh
binder of capacity 8. -/
theorem sibling_chains_wf_witness :
    ∃ L, ChainAt (bind (initBinder 8) 1 [97, 98] 5 7).1 1 L ∧
      List.Pairwise (· < ·) L ∧
      ∀ x ∈ L, 1 < x ∧ x < (bind (initBinder 8) 1 [97, 98] 5 7).1.capacity :=
  sibling_chains_wf 8 _
    (Reachable.bind_step _ 1 [97, 98] 5 7 (Reachable.init (by omega))) 1

/-! ### Access and projection lemmas for the coexistence proof -/

theorem getNode_setNode_self (b : Binder) (i : Nat) (v : Node)
    (h : i < b.nodes.length) : getNode (setNode b i v) i = v :=
  listGet_listSet_self b.nodes i v h

theorem getNode_setNode_other (b : Binder) (i j : Nat) (v : Node)
    (h : i ≠ j) : getNode (setNode b i v) j = getNode b j :=
  listGet_listSet_other b.nodes i j v h

theorem setNode_len (b : Binder) (i : Nat) (v : Node) :
    (setNode b i v).nodes.length = b.nodes.length :=
  listSet_length b.nodes i v

theorem node_mk_key (k v : Nat) : ({ key := k, next := v } : Node).key = k := rfl

theorem node_mk_bound (k v : Nat) :
    ({ key := k, next := v } : Node).bound = false := rfl

theorem node_set_child_key (n : Node) (f : Nat) :
    ({ n with child := f }).key = n.key := rfl

theorem node_renext_key (n : Node) (f : Nat) : ({ n with next := f }).key = n.key := rfl

theorem node_renext_bound (n : Node) (f : Nat) :
    ({ n with next := f }).bound = n.bound := rfl

theorem node_renext_depth (n : Node) (f : Nat) :
    ({ n with next := f }).depth = n.depth := rfl

theorem node_renext_backend (n : Node) (f : Nat) :
    ({ n with next := f }).backend = n.backend := rfl

theorem node_renext_id (n : Node) (f : Nat) : ({ n with next := f }).id = n.id := rfl

theorem node_upd_key (n : Node) (bi dp i : Nat) :
    ({ n with backend := bi, bound := true, depth := dp, id := i }).key = n.key := rfl

theorem node_upd_next (n : Node) (bi dp i : Nat) :
    ({ n with backend := bi, bound := true, depth := dp, id := i }).next = n.next := rfl

theorem node_upd_child (n : Node) (bi dp i : Nat) :
    ({ n with backend := bi, bound := true, depth := dp, id := i }).child = n.child := rfl

theorem node_upd_bound (n : Node) (bi dp i : Nat) :
    ({ n with backend := bi, bound := true, depth := dp, id := i }).bound = true := rfl

theorem node_upd_depth (n : Node) (bi dp i : Nat) :
    ({ n with backend := bi, bound := true, depth := dp, id := i }).depth = dp := rfl

theorem node_upd_backend (n : Node) (bi dp i : Nat) :
    ({ n with backend := bi, bound := true, depth := dp, id := i }).backend = bi := rfl

theorem node_upd_id (n : Node) (bi dp i : Nat) :
    ({ n with backend := bi, bound := true, depth := dp, id := i }).id = i := rfl

/-- One step of the sibling scan: a child link not beyond the parent means
no child is found. -/
theorem find_child_zero (b : Binder) (p k : Nat)
    (h : ¬ p < (getNode b p).child) : find_child b p k = 0 := by
  unfold find_child
  show find_child_loop b p k (b.capacity + 1 + 1) (getNode b p).child = 0
  simp only [find_child_loop]
  rw [if_neg h]

/-- One step of the sibling scan: the first probed node matching the key is
returned immediately. -/
theorem find_child_found (b : Binder) (p k c : Nat)
    (hc : (getNode b p).child = c) (h1 : p < c) (h2 : (getNode b c).key = k) :
    find_child b p k = c := by
  unfold find_child
  rw [hc]
  show find_child_loop b p k (b.capacity + 1 + 1) c = c
  simp only [find_child_loop]
  rw [if_pos h1, if_pos h2]

/-- find_tail stops at once on a node whose next does not move forward. -/
theorem find_tail_stop (b : Binder) (s : Nat)
    (h : ¬ s < (getNode b s).next) : find_tail b s = s := by
  unfold find_tail
  show find_tail_loop b (b.capacity + 1 + 1) s = s
  simp only [find_tail_loop]
  rw [if_neg h]

/-- The duplicate scan of bind as written never enters its body. -/
theorem dupScan_self (b : Binder) (head lk bi id : Nat) :
    dupScan b head lk bi id (b.capacity + 2) head = false := by
  show dupScan b head lk bi id (b.capacity + 1 + 1) head = false
  simp only [dupScan]
  rw [if_neg (Nat.lt_irrefl head)]

/-- The last element read through the decremented pointer is the element at
index length minus one. -/
theorem getLastD_eq_getD : ∀ (l : List Nat) (k : Nat),
    (k :: l).getLastD 0 = (k :: l).getD l.length 0 := by
  intro l
  induction l with
  | nil => intro k; rfl
  | cons k2 r ih =>
    intro k
    have h1 : (k :: k2 :: r).getLastD 0 = (k2 :: r).getLastD 0 := rfl
    rw [h1, ih k2]
    show (k2 :: r).getD r.length 0 = (k :: k2 :: r).getD (k2 :: r).length 0
    rw [List.length_cons, List.getD_cons_succ]

/-- Creating a fresh path: walking a key list from a parent whose child
link points backwards (no existing children) in a state where every slot
from the cursor on is untouched allocates one node per key, linking each
new node as the first child of the previous one; the conclusion records
the walk result and the complete shape of the resulting state. -/
theorem bindWalk_fresh (rest : List Nat) : ∀ (k : Nat) (b : Binder) (p d : Nat),
    b.nodes.length = b.capacity →
    1 ≤ p →
    (getNode b p).child < p →
    p < b.next_node →
    b.next_node + rest.length + 1 < b.capacity →
    (bindWalk b (k :: rest) p d).2.1 = b.next_node + rest.length ∧
    (bindWalk b (k :: rest) p d).2.2 = d + rest.length + 1 ∧
    (bindWalk b (k :: rest) p d).1.capacity = b.capacity ∧
    (bindWalk b (k :: rest) p d).1.backend_capacity = b.backend_capacity ∧
    (bindWalk b (k :: rest) p d).1.next_node = b.next_node + rest.length + 1 ∧
    (bindWalk b (k :: rest) p d).1.backends = b.backends ∧
    (bindWalk b (k :: rest) p d).1.nodes.length = b.nodes.length ∧
    getNode (bindWalk b (k :: rest) p d).1 p =
      { getNode b p with child := b.next_node } ∧
    (∀ j, j ≤ rest.length →
      (getNode (bindWalk b (k :: rest) p d).1 (b.next_node + j)).key =
        (k :: rest).getD j 0) ∧
    (∀ j, j < rest.length →
      (getNode (bindWalk b (k :: rest) p d).1 (b.next_node + j)).child =
        b.next_node + j + 1) ∧
    getNode (bindWalk b (k :: rest) p d).1 (b.next_node + rest.length) =
      { key := (k :: rest).getD rest.length 0,
        next := if rest.length = 0 then p else b.next_node + rest.length - 1 } ∧
    (∀ q, q ≠ p → (q < b.next_node ∨ b.next_node + rest.length + 1 ≤ q) →
      getNode (bindWalk b (k :: rest) p d).1 q = getNode b q) := by
  induction rest with
  | nil =>
    intro k b p d hlen _hp1 hch hpc hcap
    simp only [List.length_nil, Nat.add_zero] at hcap ⊢
    have hfc : find_child b p k = 0 := find_child_zero b p k (by omega)
    have hins : insert_child b p k =
        (setNode (setNode { b with next_node := b.next_node + 1 } p
            { getNode b p with child := b.next_node })
          b.next_node { key := k, next := p }, b.next_node) := by
      unfold insert_child
      dsimp only
      rw [hfc]
      rw [if_neg (show ¬ (0 : Nat) ≠ 0 by omega)]
      exact add_child_first b p k (by omega) hch
    set B : Binder := setNode (setNode { b with next_node := b.next_node + 1 } p
        { getNode b p with child := b.next_node })
      b.next_node { key := k, next := p } with hB
    have hstep : bindWalk b [k] p d = (B, b.next_node, d + 1) := by
      show (if (insert_child b p k).2 = 0
            then ((insert_child b p k).1, 0, d + 1)
            else bindWalk (insert_child b p k).1 [] (insert_child b p k).2 (d + 1)) =
          (B, b.next_node, d + 1)
      rw [hins]
      dsimp only
      rw [if_neg (show ¬ b.next_node = 0 by omega)]
      rfl
    have hplen : p < b.nodes.length := by omega
    have hclen : b.next_node < b.nodes.length := by omega
    have hBp : getNode B p = { getNode b p with child := b.next_node } := by
      rw [hB, getNode_setNode_other _ _ _ _ (show b.next_node ≠ p by omega)]
      exact getNode_setNode_self _ _ _ hplen
    have hBfresh : getNode B b.next_node = { key := k, next := p } := by
      rw [hB]
      exact getNode_setNode_self _ _ _ (by rw [setNode_len]; exact hclen)
    simp only [hstep]
    refine ⟨trivial, trivial, rfl, rfl, rfl, rfl, ?_, hBp, ?_, ?_, ?_, ?_⟩
    · rw [hB, setNode_len, setNode_len]
    · intro j hj
      have hj0 : j = 0 := by omega
      subst hj0
      rw [Nat.add_zero, hBfresh, node_mk_key, List.getD_cons_zero]
    · intro j hj
      omega
    · rw [hBfresh, List.getD_cons_zero, if_pos trivial]
    · intro q hqp hqr
      rw [hB, getNode_setNode_other _ _ _ _ (show b.next_node ≠ q by omega),
        getNode_setNode_other _ _ _ _ (fun he => hqp he.symm)]
      rfl
  | cons k2 rest2 ih =>
    intro k b p d hlen _hp1 hch hpc hcap
    simp only [List.length_cons] at hcap ⊢
    have hfc : find_child b p k = 0 := find_child_zero b p k (by omega)
    have hins : insert_child b p k =
        (setNode (setNode { b with next_node := b.next_node + 1 } p
            { getNode b p with child := b.next_node })
          b.next_node { key := k, next := p }, b.next_node) := by
      unfold insert_child
      dsimp only
      rw [hfc]
      rw [if_neg (show ¬ (0 : Nat) ≠ 0 by omega)]
      exact add_child_first b p k (by omega) hch
    set B : Binder := setNode (setNode { b with next_node := b.next_node + 1 } p
        { getNode b p with child := b.next_node })
      b.next_node { key := k, next := p } with hB
    have hstep : bindWalk b (k :: k2 :: rest2) p d =
        bindWalk B (k2 :: rest2) b.next_node (d + 1) := by
      show (if (insert_child b p k).2 = 0
            then ((insert_child b p k).1, 0, d + 1)
            else bindWalk (insert_child b p k).1 (k2 :: rest2)
              (insert_child b p k).2 (d + 1)) =
          bindWalk B (k2 :: rest2) b.next_node (d + 1)
      rw [hins]
      dsimp only
      rw [if_neg (show ¬ b.next_node = 0 by omega)]
    have hplen : p < b.nodes.length := by omega
    have hclen : b.next_node < b.nodes.length := by omega
    have hBp : getNode B p = { getNode b p with child := b.next_node } := by
      rw [hB, getNode_setNode_other _ _ _ _ (show b.next_node ≠ p by omega)]
      exact getNode_setNode_self _ _ _ hplen
    have hBfresh : getNode B b.next_node = { key := k, next := p } := by
      rw [hB]
      exact getNode_setNode_self _ _ _ (by rw [setNode_len]; exact hclen)
    have hBframe : ∀ q, q ≠ p → q ≠ b.next_node → getNode B q = getNode b q := by
      intro q h1 h2
      rw [hB, getNode_setNode_other _ _ _ _ (fun he => h2 he.symm),
        getNode_setNode_other _ _ _ _ (fun he => h1 he.symm)]
      rfl
    have hBlen : B.nodes.length = b.nodes.length := by
      rw [hB, setNode_len, setNode_len]
    have hBn : B.next_node = b.next_node + 1 := rfl
    obtain ⟨hw1, hw2, hwcap, hwbcap, hwcur, hwback, hwlen, hwp, hwkeys, hwchain,
        hwlast, hwframe⟩ :=
      ih k2 B b.next_node (d + 1)
        (by rw [hBlen, hlen]; rfl)
        (by omega)
        (by rw [hBfresh, node_mk_child]; omega)
        (by rw [hBn]; omega)
        (by rw [hBn]; show b.next_node + 1 + rest2.length + 1 < b.capacity; omega)
    rw [hBn] at hw1 hwcur hwp hwkeys hwchain hwlast hwframe
    rw [hBfresh] at hwp
    rw [hstep]
    refine ⟨?_, ?_, ?_, ?_, ?_, ?_, ?_, ?_, ?_, ?_, ?_, ?_⟩
    · rw [hw1]; omega
    · rw [hw2]; omega
    · rw [hwcap]; rfl
    · rw [hwbcap]; rfl
    · rw [hwcur]; omega
    · rw [hwback]; rfl
    · rw [hwlen, hBlen]
    · rw [hwframe p (by omega) (by omega)]
      exact hBp
    · intro j hj
      by_cases hj0 : j = 0
      · subst hj0
        have e0 : b.next_node + 0 = b.next_node := rfl
        rw [e0]
        rw [hwp]
        rw [node_set_child_key, node_mk_key, List.getD_cons_zero]
      · obtain ⟨jj, rfl⟩ : ∃ jj, j = jj + 1 := ⟨j - 1, by omega⟩
        have e : b.next_node + (jj + 1) = b.next_node + 1 + jj := by omega
        rw [e, List.getD_cons_succ]
        exact hwkeys jj (by omega)
    · intro j hj
      by_cases hj0 : j = 0
      · subst hj0
        have e0 : b.next_node + 0 = b.next_node := rfl
        rw [e0]
        rw [hwp]
      · obtain ⟨jj, rfl⟩ : ∃ jj, j = jj + 1 := ⟨j - 1, by omega⟩
        have e : b.next_node + (jj + 1) = b.next_node + 1 + jj := by omega
        rw [e]
        have h := hwchain jj (by omega)
        rw [h]
    · have e : b.next_node + (rest2.length + 1) = b.next_node + 1 + rest2.length := by
        omega
      rw [e, hwlast]
      rw [if_neg (show ¬ rest2.length + 1 = 0 by omega), List.getD_cons_succ]
      by_cases hr0 : rest2.length = 0
      · rw [if_pos hr0, hr0]
        have e3 : b.next_node + 1 + 0 - 1 = b.next_node := by omega
        rw [e3]
      · rw [if_neg hr0]
    · intro q hqp hqr
      rw [hwframe q (by omega) (by omega)]
      exact hBframe q hqp (by omega)

/-- Re-walking an existing path: when the insert point chain of each node
along the way starts with a node carrying the sought key, the walk finds
every key immediately and returns the path end without touching the
state. -/
theorem bindWalk_refind (rest : List Nat) : ∀ (k : Nat) (b : Binder) (p c d : Nat),
    (getNode b p).child = c → p < c →
    (getNode b c).key = k →
    (∀ j, j < rest.length → (getNode b (c + 1 + j)).key = rest.getD j 0) →
    (0 < rest.length → (getNode b c).child = c + 1) →
    (∀ j, j + 1 < rest.length → (getNode b (c + 1 + j)).child = c + 1 + j + 1) →
    bindWalk b (k :: rest) p d = (b, c + rest.length, d + rest.length + 1) := by
  induction rest with
  | nil =>
    intro k b p c d hpc hlt hkey _ _ _
    simp only [List.length_nil, Nat.add_zero]
    have hfc : find_child b p k = c := find_child_found b p k c hpc hlt hkey
    have hins : insert_child b p k = (b, c) := by
      unfold insert_child
      dsimp only
      rw [hfc]
      rw [if_pos (show c ≠ 0 by omega)]
    show (if (insert_child b p k).2 = 0
          then ((insert_child b p k).1, 0, d + 1)
          else bindWalk (insert_child b p k).1 [] (insert_child b p k).2 (d + 1)) =
        (b, c, d + 1)
    rw [hins]
    dsimp only
    rw [if_neg (show ¬ c = 0 by omega)]
    rfl
  | cons k2 rest2 ih =>
    intro k b p c d hpc hlt hkey hkeys hchild0 hchilds
    simp only [List.length_cons] at hkeys hchild0 hchilds ⊢
    have hfc : find_child b p k = c := find_child_found b p k c hpc hlt hkey
    have hins : insert_child b p k = (b, c) := by
      unfold insert_child
      dsimp only
      rw [hfc]
      rw [if_pos (show c ≠ 0 by omega)]
    have hstep : bindWalk b (k :: k2 :: rest2) p d =
        bindWalk b (k2 :: rest2) c (d + 1) := by
      show (if (insert_child b p k).2 = 0
            then ((insert_child b p k).1, 0, d + 1)
            else bindWalk (insert_child b p k).1 (k2 :: rest2)
              (insert_child b p k).2 (d + 1)) =
          bindWalk b (k2 :: rest2) c (d + 1)
      rw [hins]
      dsimp only
      rw [if_neg (show ¬ c = 0 by omega)]
    rw [hstep]
    have hres := ih k2 b c (c + 1) (d + 1)
      (hchild0 (by omega))
      (by omega)
      (by have h := hkeys 0 (by omega)
          have e0 : c + 1 + 0 = c + 1 := rfl
          rw [e0] at h
          rw [h, List.getD_cons_zero])
      (by intro j hj
          have h := hkeys (j + 1) (by omega)
          rw [List.getD_cons_succ] at h
          have e : c + 1 + (j + 1) = c + 1 + 1 + j := by omega
          rw [e] at h
          exact h)
      (by intro hpos
          have h := hchilds 0 (by omega)
          have e0 : c + 1 + 0 = c + 1 := rfl
          rw [e0] at h
          exact h)
      (by intro j hj
          have h := hchilds (j + 1) (by omega)
          have e : c + 1 + (j + 1) = c + 1 + 1 + j := by omega
          rw [e] at h
          exact h)
    rw [hres]
    have e1 : c + 1 + rest2.length = c + (rest2.length + 1) := by omega
    have e2 : d + 1 + rest2.length + 1 = d + (rest2.length + 1) + 1 := by omega
    rw [e1, e2]

/-- C7: coexisting bindings, proved for every chord, handler and id pair.
Starting from a fresh binder, for every chord whose raw bytes pass the
high-bit check and whose translation yields a nonempty consumed key
sequence of length L, with the pool not exhausted (L + 3 < capacity),
binding the chord in the default group with handler hnd and id id1 and
then again with the same handler and id id2 succeeds both times, and the
trie then contains two distinct bound terminal nodes for that chord
position: the original terminal at index L + 1 plus the terminal L + 2
appended to its sibling chain (the next link of L + 1 is L + 2), each
carrying the shared backend index, its own id and the chord depth L, and
walking the translated chord in the final state still reaches the
original terminal. -/
theorem coexisting_bindings (cap hnd id1 id2 ti : Nat)
    (chord emitted : List Nat) (b1 bF : Binder) (ok1 ok2 : Bool) (L : Nat)
    (_hne : id1 ≠ id2)
    (hhb : chord.any (fun c => decide (0x80 ≤ c)) = false)
    (htr : translate_chord 64 chord = some (emitted, ti))
    (hE : emitted.takeWhile (fun c => c ≠ 0) ≠ [])
    (hL : L = (emitted.takeWhile (fun c => c ≠ 0)).length)
    (hcap : L + 3 < cap)
    (h1 : bind (initBinder cap) 1 chord hnd id1 = (b1, ok1))
    (h2 : bind b1 1 chord hnd id2 = (bF, ok2)) :
    ok1 = true ∧ ok2 = true ∧ L + 1 ≠ L + 2 ∧
    bindWalk bF (emitted.takeWhile (fun c => c ≠ 0)) 1 0 = (bF, L + 1, L) ∧
    (getNode bF (L + 1)).bound = true ∧
    (getNode bF (L + 2)).bound = true ∧
    (getNode bF (L + 1)).next = L + 2 ∧
    (getNode bF (L + 1)).backend = (getNode bF (L + 2)).backend ∧
    (getNode bF (L + 1)).id = id1 ∧
    (getNode bF (L + 2)).id = id2 ∧
    (getNode bF (L + 1)).depth = L ∧
    (getNode bF (L + 2)).depth = L := by
  cases hEE : emitted.takeWhile (fun c => c ≠ 0) with
  | nil => exact absurd hEE hE
  | cons k rest =>
  rw [hEE] at hL
  rw [List.length_cons] at hL
  subst hL
  have eA : rest.length + 1 + 1 = 2 + rest.length := by omega
  have eB : rest.length + 1 + 2 = 2 + rest.length + 1 := by omega
  rw [eA, eB]
  -- the handler registration on the fresh binder
  have hab : add_backend (initBinder cap) hnd =
      ({ initBinder cap with backends := [hnd] }, 0) := by
    unfold add_backend
    dsimp only
    rw [show find_backend (initBinder cap).backends hnd 0 = -1 from rfl]
    rw [if_neg (show ¬ (0 : Int) ≤ -1 by omega)]
    rw [if_pos (show (initBinder cap).backends.length <
        (initBinder cap).backend_capacity from by show (0 : Nat) < cap; omega)]
    rfl
  set bA : Binder := { initBinder cap with backends := [hnd] } with hbA
  have hgA : ∀ i, getNode bA i = {} := fun i => listGet_replicate cap i
  have hlenA : bA.nodes.length = bA.capacity := by
    show (List.replicate cap ({} : Node)).length = cap
    exact List.length_replicate cap ({} : Node)
  -- the first walk creates the path 2 .. rest.length + 1
  obtain ⟨hw1, hw2, hwcap, _hwbcap, hwcur, hwback, hwlen, hwp, hwkeys, hwchain,
      hwlast, _hwframe⟩ :=
    bindWalk_fresh rest k bA 1 0 hlenA (by omega)
      (by rw [hgA 1, node_default_child]; omega)
      (by show (1 : Nat) < 2; omega)
      (by show 2 + rest.length + 1 < cap; omega)
  have hbAn : bA.next_node = 2 := rfl
  rw [hbAn] at hw1 hwcur hwp hwkeys hwchain hwlast
  rw [hgA 1] at hwp
  rw [show (0 + rest.length + 1) = rest.length + 1 from by omega] at hw2
  set W : Binder := (bindWalk bA (k :: rest) 1 0).1 with hW
  have hwalk : bindWalk bA (k :: rest) 1 0 = (W, 2 + rest.length, rest.length + 1) := by
    rw [← hw1, ← hw2]
  have hlenW : W.nodes.length = cap := by
    rw [hwlen]
    show (List.replicate cap ({} : Node)).length = cap
    exact List.length_replicate cap ({} : Node)
  have ht1lt : 2 + rest.length < cap := by omega
  set U1 : Node := { getNode W (2 + rest.length) with
      backend := 0, bound := true, depth := rest.length + 1, id := id1 } with hU1
  have hbf : ¬ ((getNode W (2 + rest.length)).bound = true) := by
    rw [hwlast]
    show ¬ (false = true)
    simp
  -- the first bind reduces to marking the fresh terminal
  have hbind1 : bind (initBinder cap) 1 chord hnd id1 =
      (setNode W (2 + rest.length) U1, true) := by
    unfold bind
    rw [if_neg (show ¬ (initBinder cap).capacity ≤ 1 from by show ¬ cap ≤ 1; omega)]
    rw [hhb]
    simp only [Bool.false_eq_true, if_false, htr]
    rw [hEE]
    rw [hab]
    dsimp only
    rw [if_neg (show ¬ (0 : Int) < 0 by omega)]
    rw [show ((0 : Int).toNat) = 0 from rfl]
    rw [hwalk]
    dsimp only
    rw [if_neg (show ¬ 2 + rest.length = 0 by omega)]
    rw [if_neg hbf]
  rw [hbind1] at h1
  injection h1 with h1b h1o
  -- facts about the state after the first bind
  have hb1t1 : getNode b1 (2 + rest.length) = U1 := by
    rw [← h1b]
    exact getNode_setNode_self _ _ _ (by rw [hlenW]; exact ht1lt)
  have hb1other : ∀ q, q ≠ 2 + rest.length → getNode b1 q = getNode W q := by
    intro q hq
    rw [← h1b]
    exact getNode_setNode_other _ _ _ _ (fun he => hq he.symm)
  have hb1cur : b1.next_node = 2 + rest.length + 1 := by
    rw [← h1b]
    show W.next_node = 2 + rest.length + 1
    exact hwcur
  have hb1capeq : b1.capacity = cap := by
    rw [← h1b]
    show W.capacity = cap
    rw [hwcap]
    rfl
  have hb1back : b1.backends = [hnd] := by
    rw [← h1b]
    show W.backends = [hnd]
    rw [hwback]
  have hb1len : b1.nodes.length = cap := by
    rw [← h1b, setNode_len]
    exact hlenW
  -- the second registration finds the same handler slot
  have hab2 : add_backend b1 hnd = (b1, 0) := by
    unfold add_backend
    dsimp only
    rw [hb1back]
    rw [find_backend_self hnd 0]
    rw [if_pos (show (0 : Int) ≤ ((0 : Nat) : Int) by omega)]
    rfl
  -- the second walk finds the existing path without touching the state
  have hkeep : ∀ q, (getNode b1 q).key = (getNode W q).key ∧
      (getNode b1 q).child = (getNode W q).child := by
    intro q
    by_cases hq : q = 2 + rest.length
    · subst hq
      rw [hb1t1]
      exact ⟨node_upd_key _ _ _ _, node_upd_child _ _ _ _⟩
    · rw [hb1other q hq]
      exact ⟨rfl, rfl⟩
  have hc1 : (getNode b1 1).child = 2 := by
    rw [(hkeep 1).2, hwp, node_set_child_child]
  have hkW2 : (getNode W 2).key = k := by
    have h := hwkeys 0 (by omega)
    have e0 : 2 + 0 = 2 := rfl
    rw [e0] at h
    rw [h, List.getD_cons_zero]
  have hc3 : (getNode b1 2).key = k := by
    rw [(hkeep 2).1]
    exact hkW2
  have hc4 : ∀ j, j < rest.length → (getNode b1 (2 + 1 + j)).key = rest.getD j 0 := by
    intro j hj
    rw [(hkeep (2 + 1 + j)).1]
    have h := hwkeys (j + 1) (by omega)
    have e : 2 + (j + 1) = 2 + 1 + j := by omega
    rw [e] at h
    rw [h, List.getD_cons_succ]
  have hc5 : 0 < rest.length → (getNode b1 2).child = 2 + 1 := by
    intro hpos
    rw [(hkeep 2).2]
    have h := hwchain 0 (by omega)
    have e0 : 2 + 0 = 2 := rfl
    rw [e0] at h
    exact h
  have hc6 : ∀ j, j + 1 < rest.length →
      (getNode b1 (2 + 1 + j)).child = 2 + 1 + j + 1 := by
    intro j hj
    rw [(hkeep (2 + 1 + j)).2]
    have h := hwchain (j + 1) (by omega)
    have e : 2 + (j + 1) = 2 + 1 + j := by omega
    rw [e] at h
    exact h
  have hrf := bindWalk_refind rest k b1 1 2 0 hc1 (by omega) hc3 hc4 hc5 hc6
  rw [show (0 + rest.length + 1) = rest.length + 1 from by omega] at hrf
  -- the terminal is bound, so the second bind appends a duplicate
  have hbt : (getNode b1 (2 + rest.length)).bound = true := by
    rw [hb1t1]
  have hun : U1.next = (getNode W (2 + rest.length)).next := node_upd_next _ _ _ _
  have hnt1 : ¬ 2 + rest.length < (getNode b1 (2 + rest.length)).next := by
    rw [hb1t1, hun, hwlast, node_mk_next]
    by_cases hr0 : rest.length = 0
    · rw [if_pos hr0]
      omega
    · rw [if_neg hr0]
      omega
  have htail : find_tail b1 (2 + rest.length) = 2 + rest.length :=
    find_tail_stop b1 _ hnt1
  have happ : b1.next_node + 1 < b1.capacity := by
    rw [hb1cur, hb1capeq]
    omega
  set S : Binder := setNode (setNode { b1 with next_node := 2 + rest.length + 1 + 1 }
      (2 + rest.length) { U1 with next := 2 + rest.length + 1 })
    (2 + rest.length + 1) { key := (k :: rest).getLastD 0, next := U1.next } with hS
  set U2 : Node := { getNode S (2 + rest.length + 1) with
      backend := 0, bound := true, depth := rest.length + 1, id := id2 } with hU2
  -- the second bind reduces to the appended duplicate terminal
  have hbind2 : bind b1 1 chord hnd id2 =
      (setNode S (2 + rest.length + 1) U2, true) := by
    unfold bind
    rw [if_neg (show ¬ b1.capacity ≤ 1 by rw [hb1capeq]; omega)]
    rw [hhb]
    simp only [Bool.false_eq_true, if_false, htr]
    rw [hEE]
    rw [hab2]
    dsimp only
    rw [if_neg (show ¬ (0 : Int) < 0 by omega)]
    rw [show ((0 : Int).toNat) = 0 from rfl]
    rw [hrf]
    dsimp only
    rw [if_neg (show ¬ 2 + rest.length = 0 by omega)]
    rw [if_pos hbt]
    rw [dupScan_self b1 (2 + rest.length) ((k :: rest).getLastD 0) 0 id2]
    simp only [Bool.false_eq_true, if_false]
    rw [append_eq b1 (2 + rest.length) ((k :: rest).getLastD 0) happ]
    dsimp only
    rw [htail, hb1t1, hb1cur]
    rw [if_neg (show ¬ 2 + rest.length + 1 = 0 by omega)]
  rw [hbind2] at h2
  injection h2 with h2b h2o
  -- facts about the final state
  have hSlen : S.nodes.length = cap := by
    rw [hS, setNode_len, setNode_len]
    show b1.nodes.length = cap
    exact hb1len
  have ht2lt : 2 + rest.length + 1 < cap := by omega
  have hbFt2 : getNode bF (2 + rest.length + 1) = U2 := by
    rw [← h2b]
    exact getNode_setNode_self _ _ _ (by rw [hSlen]; exact ht2lt)
  have hbFt1 : getNode bF (2 + rest.length) =
      { U1 with next := 2 + rest.length + 1 } := by
    rw [← h2b]
    rw [getNode_setNode_other _ _ _ _ (show 2 + rest.length + 1 ≠ 2 + rest.length by omega)]
    rw [hS]
    rw [getNode_setNode_other _ _ _ _ (show 2 + rest.length + 1 ≠ 2 + rest.length by omega)]
    exact getNode_setNode_self _ _ _
      (by show 2 + rest.length < b1.nodes.length; rw [hb1len]; exact ht1lt)
  have hkeepF : ∀ q, q ≠ 2 + rest.length + 1 →
      (getNode bF q).key = (getNode b1 q).key ∧
      (getNode bF q).child = (getNode b1 q).child := by
    intro q hq
    rw [← h2b]
    rw [getNode_setNode_other _ _ _ _ (fun he => hq he.symm)]
    rw [hS]
    rw [getNode_setNode_other _ _ _ _ (fun he => hq he.symm)]
    by_cases hqt : q = 2 + rest.length
    · subst hqt
      rw [getNode_setNode_self _ _ _
        (by show 2 + rest.length < b1.nodes.length; rw [hb1len]; exact ht1lt)]
      rw [hb1t1]
      exact ⟨node_renext_key _ _, node_set_next_child _ _⟩
    · rw [getNode_setNode_other _ _ _ _ (fun he => hqt he.symm)]
      exact ⟨rfl, rfl⟩
  have hd1 : (getNode bF 1).child = 2 := by
    rw [(hkeepF 1 (by omega)).2]
    exact hc1
  have hd3 : (getNode bF 2).key = k := by
    rw [(hkeepF 2 (by omega)).1]
    exact hc3
  have hd4 : ∀ j, j < rest.length → (getNode bF (2 + 1 + j)).key = rest.getD j 0 := by
    intro j hj
    rw [(hkeepF (2 + 1 + j) (by omega)).1]
    exact hc4 j hj
  have hd5 : 0 < rest.length → (getNode bF 2).child = 2 + 1 := by
    intro hpos
    rw [(hkeepF 2 (by omega)).2]
    exact hc5 hpos
  have hd6 : ∀ j, j + 1 < rest.length →
      (getNode bF (2 + 1 + j)).child = 2 + 1 + j + 1 := by
    intro j hj
    rw [(hkeepF (2 + 1 + j) (by omega)).2]
    exact hc6 j hj
  have hrfF := bindWalk_refind rest k bF 1 2 0 hd1 (by omega) hd3 hd4 hd5 hd6
  rw [show (0 + rest.length + 1) = rest.length + 1 from by omega] at hrfF
  refine ⟨h1o.symm, h2o.symm, by omega, hrfF, ?_, ?_, ?_, ?_, ?_, ?_, ?_, ?_⟩
  · rw [hbFt1, node_renext_bound]
  · rw [hbFt2]
  · rw [hbFt1]
  · rw [hbFt1, node_renext_backend, hbFt2]
  · rw [hbFt1, node_renext_id]
  · rw [hbFt2]
  · rw [hbFt1, node_renext_depth]
  · rw [hbFt2]

/-- C7 witness: the contract evaluated at the representative instance of
the spec: chord ab in the default group of a fresh binder of capacity 16,
one handler token 5, ids 1 and 2. -/
theorem coexisting_bindings_witness :
    ((1 : Nat) ≠ 2) ∧
    [97, 98].any (fun c => decide (0x80 ≤ c)) = false ∧
    translate_chord 64 [97, 98] = some ([97, 98], 2) ∧
    [97, 98].takeWhile (fun c => c ≠ 0) ≠ [] ∧
    (2 : Nat) = ([97, 98].takeWhile (fun c => c ≠ 0)).length ∧
    (2 : Nat) + 3 < 16 ∧
    ((coexistOnce 1).2 = true ∧ (coexistTwice 1 2).2 = true ∧
      (2 : Nat) + 1 ≠ 2 + 2 ∧
      bindWalk (coexistTwice 1 2).1 ([97, 98].takeWhile (fun c => c ≠ 0)) 1 0 =
        ((coexistTwice 1 2).1, 2 + 1, 2) ∧
      (getNode (coexistTwice 1 2).1 (2 + 1)).bound = true ∧
      (getNode (coexistTwice 1 2).1 (2 + 2)).bound = true ∧
      (getNode (coexistTwice 1 2).1 (2 + 1)).next = 2 + 2 ∧
      (getNode (coexistTwice 1 2).1 (2 + 1)).backend =
        (getNode (coexistTwice 1 2).1 (2 + 2)).backend ∧
      (getNode (coexistTwice 1 2).1 (2 + 1)).id = 1 ∧
      (getNode (coexistTwice 1 2).1 (2 + 2)).id = 2 ∧
      (getNode (coexistTwice 1 2).1 (2 + 1)).depth = 2 ∧
      (getNode (coexistTwice 1 2).1 (2 + 2)).depth = 2) :=
  ⟨by decide, by decide, by decide, by decide, by decide, by decide,
    coexisting_bindings 16 5 1 2 2 [97, 98] [97, 98]
      (coexistOnce 1).1 (coexistTwice 1 2).1 (coexistOnce 1).2 (coexistTwice 1 2).2 2
      (by decide) (by decide) (by decide) (by decide) (by decide) (by decide) rfl rfl⟩

end Clink
